import Mathlib

/-!
Verification of the Skill-Gap-Analyzer core against its specification.

This file gives a shallow embedding, in Lean 4, of the skill-extraction and
gap-matching engine of the repository:

* `app/services/analyzer.py` (`GapAnalyzer.analyze`, semantic tier),
* `app/main.py` (`analyze_gap_lists`, semantic tier),
* `app/services/rag_verifier.py` (`RAGVerifier.verify_skill`,
  `RAGVerifier._threshold_fallback`),
* `app/services/skill_extractor.py` (`SkillExtractor`),
* `app/services/skill_taxonomy.py` (`SkillTaxonomy`),
* `app/services/resume_segmenter.py` (`ResumeSegmenter`).

Similarity scores and confidences (Python floats) are modelled as rationals;
Python strings are modelled as Lean strings (lists of characters), with
Python's case folding, stripping and splitting re-implemented character by
character.  External collaborators (the spaCy tokenizer, the embedding
function, the LLM) are modelled as parameters; the rapidfuzz `fuzz.ratio`
scorer is modelled exactly as the normalized-indel similarity it computes.
Dictionaries are modelled as association lists where a later write is
consed in front (so lookup finds the most recent binding, matching the
last-write-wins semantics of Python `dict` assignment).
-/

/- Batteries marks the rational-number operations `@[irreducible]`; reset
them to the default reducibility in this file so that concrete runs of the
embedded pipeline evaluate inside `decide`/`rfl` proofs. -/
attribute [local semireducible] Rat.add Rat.mul Rat.sub Rat.inv Rat.ofScientific

/-! ### Character and string utilities (Python `str` semantics, ASCII) -/

/-- Python `str.lower` on an ASCII character. -/
def lowChar (c : Char) : Char :=
  if 'A' ≤ c ∧ c ≤ 'Z' then Char.ofNat (c.toNat + 32) else c

/-- Python `str.upper` on an ASCII character. -/
def upChar (c : Char) : Char :=
  if 'a' ≤ c ∧ c ≤ 'z' then Char.ofNat (c.toNat - 32) else c

/-- Python `str.lower`. -/
def lowStr (s : String) : String := ⟨s.data.map lowChar⟩

/-- Python `str.upper`. -/
def upStr (s : String) : String := ⟨s.data.map upChar⟩

/-- Python's `\s` class (ASCII): space, tab, newline, CR, VT, FF. -/
def pySpace (c : Char) : Bool :=
  c = ' ' || c = '\t' || c = '\n' || c = '\x0d' || c = '\x0b' || c = '\x0c'

/-- Strip a list of characters on both ends with respect to a predicate. -/
def stripList (p : Char → Bool) (l : List Char) : List Char :=
  ((l.dropWhile p).reverse.dropWhile p).reverse

/-- Python `str.strip()` (whitespace on both ends). -/
def trimStr (s : String) : String := ⟨stripList pySpace s.data⟩

/-- Python `str.strip(':')`. -/
def stripColons (s : String) : String := ⟨stripList (· = ':') s.data⟩

/-- Split a character list at every character satisfying `p`, keeping empty
segments (Python `str.split(sep)` / `re.split` semantics). -/
def splitListP (p : Char → Bool) : List Char → List (List Char)
  | [] => [[]]
  | c :: rest =>
    let r := splitListP p rest
    if p c then [] :: r
    else match r with
      | [] => [[c]]
      | seg :: segs => (c :: seg) :: segs

/-- Split a string at every character satisfying `p`, keeping empties. -/
def splitStrP (p : Char → Bool) (s : String) : List String :=
  (splitListP p s.data).map (fun l => ⟨l⟩)

/-- Python `str.split()` with no argument: split on whitespace runs,
discarding empty segments. -/
def splitWS (s : String) : List String :=
  (splitStrP pySpace s).filter (fun t => t ≠ "")

/-- Collapse every maximal run of whitespace to a single space
(`re.sub(r'\s+', ' ', s)`); `prevSpace` records whether the previous
character was whitespace. -/
def collapseWSAux (prevSpace : Bool) : List Char → List Char
  | [] => []
  | c :: rest =>
    if pySpace c then
      if prevSpace then collapseWSAux true rest
      else ' ' :: collapseWSAux true rest
    else c :: collapseWSAux false rest

/-- `re.sub(r'\s+', ' ', s)`. -/
def collapseWS (s : String) : String := ⟨collapseWSAux false s.data⟩

/-- Does `pat` occur as a prefix of `l`? -/
def startsWithL : List Char → List Char → Bool
  | [], _ => true
  | _ :: _, [] => false
  | p :: ps, c :: cs => p = c && startsWithL ps cs

/-- Does `pat` occur as a contiguous substring of `l` (Python `in`)? -/
def containsSub (pat : List Char) : List Char → Bool
  | [] => startsWithL pat []
  | c :: rest => startsWithL pat (c :: rest) || containsSub pat rest

/-- Python `sub in s` on strings. -/
def strContains (sub s : String) : Bool := containsSub sub.data s.data

/-- Lookup in an association list (first match wins; since writes are consed
in front this is last-write-wins, like Python `dict`). -/
def alistFind (m : List (String × String)) (k : String) : Option String :=
  match m.find? (fun p => p.1 = k) with
  | some p => some p.2
  | none => none

/-! ### Python `round(x, 2)` (banker's rounding) on rationals -/

/-- Round a rational to the nearest integer, ties to even
(Python `round`). -/
def roundHalfEven (q : ℚ) : ℤ :=
  let f : ℤ := ⌊q⌋
  let r : ℚ := q - f
  if r < 1/2 then f
  else if 1/2 < r then f + 1
  else if f % 2 = 0 then f else f + 1

/-- Python `round(q, 2)`. -/
def round2 (q : ℚ) : ℚ := (roundHalfEven (q * 100) : ℚ) / 100

/-! ### Gap matcher, semantic tier
(`GapAnalyzer.analyze` in `app/services/analyzer.py`, and
`analyze_gap_lists` in `app/main.py`).

Both call sites take, per requirement that missed the exact-string tier, the
top-1 cosine similarity `s` against the possessed evidence and route the
requirement to a terminal COVERED/MISSING verdict or to arbitration. -/

/-- Verdict of the semantic tier for one requirement. -/
inductive GapDecision where
  | covered
  | missing
  | borderline
  deriving DecidableEq, Repr

/-- Outcome record of the semantic tier: decision, the confidence recorded in
the result entry (`none` when the entry carries no confidence), and the
evidence/matched-with string attached to a covered entry. -/
structure SemanticOutcome where
  decision : GapDecision
  confidence : Option ℚ
  evidence : Option String
  deriving DecidableEq, Repr

/-- Semantic tier of `GapAnalyzer.analyze` (analyzer.py lines 137-165):
`s ≥ 0.7` is a clear match with confidence `min((s-0.7)/0.3, 1.0)` and the
best-matching resume chunk as evidence; `s ≤ 0.3` is a clear miss with
confidence `min((0.3-s)/0.3, 1.0)`; otherwise the case is queued for AI
verification. -/
def analyzeSemantic (s : ℚ) (ctx : String) : SemanticOutcome :=
  if s ≥ 7/10 then
    ⟨.covered, some (min ((s - 7/10) / (3/10)) 1), some ctx⟩
  else if s ≤ 3/10 then
    ⟨.missing, some (min ((3/10 - s) / (3/10)) 1), none⟩
  else
    ⟨.borderline, none, none⟩

/-- Semantic tier of `analyze_gap_lists` (main.py lines 174-204):
`s ≥ 0.7` is covered with confidence `round(s, 2)` and the best-matching
resume skill; `s ≥ 0.3` is borderline (queued for RAG verification);
otherwise missing, with no confidence recorded. -/
def gapListsSemantic (s : ℚ) (bestMatch : String) : SemanticOutcome :=
  if s ≥ 7/10 then
    ⟨.covered, some (round2 s), some bestMatch⟩
  else if s ≥ 3/10 then
    ⟨.borderline, none, none⟩
  else
    ⟨.missing, none, none⟩

/-! ### RAG verifier (`app/services/rag_verifier.py`) -/

/-- Reasoning attached to a verification result.  The fallback reasoning is
an f-string mentioning score and threshold; its exact text is abstracted to a
tag, AI-provided reasonings keep their text. -/
inductive VerifReasoning where
  | thresholdBased
  | fromModel (text : String)
  | defaultCompleted
  deriving DecidableEq, Repr

/-- Result dictionary of `RAGVerifier.verify_skill`. -/
structure Verification where
  decision : String
  confidence : ℚ
  reasoning : VerifReasoning
  evidence : Option String
  deriving DecidableEq, Repr

/-- The arbitration collaborator (LLM) as observed by `verify_skill`:
either the client is absent (`unavailable`), the call raised or the response
body was not valid JSON (`unparseable`), the parsed object has no
`"decision"` field (`missingDecision`), or it parsed to a record with a
decision string and optional confidence/reasoning/evidence fields. -/
inductive ArbResponse where
  | unavailable
  | unparseable
  | missingDecision
  | parsed (decision : String) (confidence : Option ℚ)
      (reasoning : Option String) (evidence : Option String)
  deriving DecidableEq, Repr

/-- `RAGVerifier._threshold_fallback` (rag_verifier.py lines 112-126):
COVERED iff `score ≥ 0.5`, confidence `round(min(2*|score-0.5|, 1.0), 2)`,
threshold-based reasoning, no evidence. -/
def thresholdFallback (score : ℚ) : Verification :=
  let threshold : ℚ := 1/2
  let decision := if score ≥ threshold then "COVERED" else "MISSING"
  let distance := |score - threshold|
  let confidence := min (distance * 2) 1
  ⟨decision, round2 confidence, .thresholdBased, none⟩

/-- `RAGVerifier.verify_skill` (rag_verifier.py lines 37-110), as a function
of the collaborator's response and the similarity score.  `Except.error`
would model an exception escaping to the caller; every branch of the source
returns normally (the whole LLM interaction is wrapped in `try/except`
that falls back), so every branch here is `Except.ok`. -/
def verifySkill (resp : ArbResponse) (score : ℚ) : Except String Verification :=
  match resp with
  | .unavailable => .ok (thresholdFallback score)
  | .unparseable => .ok (thresholdFallback score)
  | .missingDecision => .ok (thresholdFallback score)
  | .parsed d conf reas evid =>
    let du := upStr d
    if du = "COVERED" || du = "MISSING" || du = "PARTIAL" then
      .ok ⟨du, conf.getD (7/10),
           (match reas with
            | some r => .fromModel r
            | none => .defaultCompleted), evid⟩
    else
      .ok (thresholdFallback score)

/-- Does this collaborator response trigger the deterministic fallback?
(unavailable, unparseable, missing `"decision"` field, or a decision outside
the recognized set after upper-casing). -/
def fallbackTrigger (resp : ArbResponse) : Bool :=
  match resp with
  | .unavailable => true
  | .unparseable => true
  | .missingDecision => true
  | .parsed d _ _ _ =>
    let du := upStr d
    ¬(du = "COVERED" || du = "MISSING" || du = "PARTIAL")

/-! ### Static tables of `SkillExtractor` (skill_extractor.py lines 50-170)
and `SkillTaxonomy.SKILL_ALIASES` (skill_taxonomy.py lines 27-196), and the
header-pattern sets of `ResumeSegmenter` (resume_segmenter.py lines 23-47).
The header patterns are literal words up to an optional trailing `s?`; each
regex is expanded here into the finite list of strings it full-matches. -/

def ANCHOR_WORDS : List String := ["using", "used", "use", "with", "via", "through", "built", "building", "developed", "developing", "maintained", "managed", "deployed", "shipping", "stack", "technologies", "tools", "framework", "proficient", "experienced", "knowledge", "skills", "platform", "language", "library", "api"]

def DENYLIST : List String := ["advanced", "expert", "proficient", "experienced", "strong", "knowledge", "understanding", "hands-on", "familiar", "various", "excellent", "good", "great", "basic", "intermediate", "senior", "junior", "lead", "principal", "manager", "management", "years", "time", "working", "work", "projects", "responsible", "duties", "role", "team", "member", "collaborated", "programming", "concepts", "frameworks", "libraries", "tools", "languages", "platforms", "solutions", "applications", "systems", "services", "version", "control", "analysis", "design", "development", "implementation", "testing", "deployment", "maintenance", "support", "documentation", "communication", "coordination", "environment", "methodologies", "practices", "principles", "patterns", "css", "cloud", "apis", "api", "database", "databases", "frontend", "backend", "devops", "web", "mobile", "software", "engineering"]

def ABSTRACTION_RULES : List (String × List String) := [("cloud", ["aws", "azure", "gcp", "google cloud"]), ("css", ["tailwind css", "bootstrap", "sass", "scss"]), ("apis", ["rest apis", "grpc", "graphql", "websockets"]), ("api", ["rest apis", "grpc", "graphql", "websockets"]), ("database", ["postgresql", "mongodb", "mysql", "redis", "sql server"]), ("databases", ["postgresql", "mongodb", "mysql", "redis", "sql server"])]

def CANONICAL_SKILLS : List (String × String) := [("git", "Git"), ("github", "GitHub"), ("gitlab", "GitLab"), ("bitbucket", "Bitbucket"), ("javascript", "JavaScript"), ("js", "JavaScript"), ("typescript", "TypeScript"), ("ts", "TypeScript"), ("node.js", "Node.js"), ("nodejs", "Node.js"), ("node", "Node.js"), ("react", "React"), ("reactjs", "React"), ("react.js", "React"), ("vue", "Vue.js"), ("vuejs", "Vue.js"), ("vue.js", "Vue.js"), ("angular", "Angular"), ("angularjs", "Angular"), ("express", "Express.js"), ("expressjs", "Express.js"), ("express.js", "Express.js"), ("python", "Python"), ("py", "Python"), ("fastapi", "FastAPI"), ("django", "Django"), ("flask", "Flask"), ("postgresql", "PostgreSQL"), ("postgres", "PostgreSQL"), ("mongodb", "MongoDB"), ("mongo", "MongoDB"), ("redis", "Redis"), ("mysql", "MySQL"), ("aws", "AWS"), ("amazon web services", "AWS"), ("azure", "Azure"), ("microsoft azure", "Azure"), ("gcp", "GCP"), ("google cloud", "GCP"), ("docker", "Docker"), ("kubernetes", "Kubernetes"), ("k8s", "Kubernetes"), ("ci/cd", "CI/CD"), ("cicd", "CI/CD"), ("rest apis", "REST APIs"), ("rest api", "REST APIs"), ("restful", "REST APIs"), ("grpc", "gRPC"), ("graphql", "GraphQL"), ("websockets", "WebSockets"), ("websocket", "WebSockets"), ("event-driven", "Event-Driven Systems"), ("event driven", "Event-Driven Systems"), ("authentication", "Authentication & Authorization"), ("authorization", "Authentication & Authorization"), ("auth", "Authentication & Authorization"), ("unit testing", "Unit Testing"), ("unit tests", "Unit Testing"), ("scalability", "Scalability"), ("data structures", "Data Structures"), ("algorithms", "Algorithms"), ("dsa", "Data Structures"), ("rust", "Rust"), ("c++", "C++"), ("cpp", "C++"), ("java", "Java"), ("go", "Go"), ("golang", "Go"), ("tailwind", "Tailwind CSS"), ("tailwind css", "Tailwind CSS"), ("tailwindcss", "Tailwind CSS")]

def SKILL_ALIASES : List (String × String) := [("js", "JavaScript"), ("javascript", "JavaScript"), ("es6", "JavaScript"), ("es2015", "JavaScript"), ("ecmascript", "JavaScript"), ("ts", "TypeScript"), ("typescript", "TypeScript"), ("python3", "Python"), ("python 3", "Python"), ("py", "Python"), ("k8s", "Kubernetes"), ("kube", "Kubernetes"), ("containerization", "Docker"), ("containers", "Docker"), ("postgres", "PostgreSQL"), ("postgresql", "PostgreSQL"), ("psql", "PostgreSQL"), ("mongo", "MongoDB"), ("mongodb", "MongoDB"), ("mysql", "MySQL"), ("mssql", "SQL Server"), ("sql server", "SQL Server"), ("amazon web services", "AWS"), ("aws", "AWS"), ("google cloud platform", "GCP"), ("google cloud", "GCP"), ("gcp", "GCP"), ("azure", "Azure"), ("microsoft azure", "Azure"), ("reactjs", "React"), ("react.js", "React"), ("react js", "React"), ("vuejs", "Vue.js"), ("vue", "Vue.js"), ("vue.js", "Vue.js"), ("angularjs", "Angular"), ("angular.js", "Angular"), ("angular", "Angular"), ("nextjs", "Next.js"), ("next.js", "Next.js"), ("nodejs", "Node.js"), ("node.js", "Node.js"), ("node", "Node.js"), ("expressjs", "Express.js"), ("express.js", "Express.js"), ("express", "Express.js"), ("fastapi", "FastAPI"), ("django", "Django"), ("flask", "Flask"), ("spring boot", "Spring Boot"), ("springboot", "Spring Boot"), ("rest api", "REST APIs"), ("rest apis", "REST APIs"), ("restful", "REST APIs"), ("restful api", "REST APIs"), ("graphql", "GraphQL"), ("machine learning", "Machine Learning"), ("ml", "Machine Learning"), ("deep learning", "Deep Learning"), ("dl", "Deep Learning"), ("artificial intelligence", "AI"), ("ai", "AI"), ("natural language processing", "NLP"), ("nlp", "NLP"), ("git", "Git"), ("github", "GitHub"), ("gitlab", "GitLab"), ("bitbucket", "Bitbucket"), ("ci/cd", "CI/CD"), ("cicd", "CI/CD"), ("continuous integration", "CI/CD"), ("jenkins", "Jenkins"), ("github actions", "GitHub Actions"), ("c#", "C#"), ("csharp", "C#"), ("c sharp", "C#"), ("c++", "C++"), ("cpp", "C++"), ("cplusplus", "C++"), ("golang", "Go"), ("go", "Go"), ("rust", "Rust"), ("java", "Java"), ("kotlin", "Kotlin"), ("swift", "Swift"), ("ruby", "Ruby"), ("php", "PHP"), ("r", "R"), ("scala", "Scala"), ("unit testing", "Unit Testing"), ("unittest", "Unit Testing"), ("pytest", "Pytest"), ("jest", "Jest"), ("mocha", "Mocha"), ("selenium", "Selenium"), ("cypress", "Cypress"), ("pandas", "Pandas"), ("numpy", "NumPy"), ("scipy", "SciPy"), ("tensorflow", "TensorFlow"), ("tf", "TensorFlow"), ("pytorch", "PyTorch"), ("torch", "PyTorch"), ("scikit-learn", "Scikit-learn"), ("sklearn", "Scikit-learn"), ("terraform", "Terraform"), ("ansible", "Ansible"), ("puppet", "Puppet"), ("chef", "Chef"), ("kafka", "Apache Kafka"), ("rabbitmq", "RabbitMQ"), ("redis", "Redis"), ("html5", "HTML"), ("html", "HTML"), ("css3", "CSS"), ("css", "CSS"), ("sass", "SASS"), ("scss", "SASS"), ("less", "LESS"), ("tailwind", "Tailwind CSS"), ("tailwindcss", "Tailwind CSS"), ("bootstrap", "Bootstrap"), ("jquery", "jQuery"), ("webpack", "Webpack"), ("vite", "Vite"), ("babel", "Babel"), ("eslint", "ESLint"), ("prettier", "Prettier"), ("linux", "Linux"), ("unix", "Unix"), ("bash", "Bash"), ("shell", "Shell Scripting"), ("powershell", "PowerShell")]

def PRIMARY_HEADER_LITS : List String := ["skill", "skills", "technical skill", "technical skills", "technologies", "tech stack", "core competencies", "expertise", "programming languages", "tools & technologies", "technology stack"]

def SECONDARY_HEADER_LITS : List String := ["experience", "work experience", "employment", "professional experience", "work history", "project", "projects", "personal project", "personal projects", "key projects"]

def TERTIARY_HEADER_LITS : List String := ["summary", "profile", "about me", "education", "achievement", "achievements", "certification", "certifications", "award", "awards", "interest", "interests", "language", "languages", "reference", "references", "volunteer", "publication", "publications"]

/-! ### Skill taxonomy (`app/services/skill_taxonomy.py`) -/

/-- The loaded taxonomy: `_skills_set` (modelled as an insertion-ordered
duplicate-free list; the Python `set` has no specified order and no claim
here depends on the order) and `_skills_lower_map` (most recent write
first). -/
structure SkillTaxonomy where
  skills : List String
  lowerMap : List (String × String)
  deriving DecidableEq, Repr

/-- Python `set.add`. -/
def setAdd (s : List String) (x : String) : List String :=
  if s.contains x then s else s ++ [x]

/-- Python `dict[k] = v` (new binding shadows older ones). -/
def mapWrite (m : List (String × String)) (k v : String) :
    List (String × String) := (k, v) :: m

/-- One dataset skill entry in `_load_skills`: strings are stripped, empty
entries skipped, the canonical form added to the set and its lowercase form
mapped to it. -/
def loadDatasetStep (acc : SkillTaxonomy) (skill : String) : SkillTaxonomy :=
  let canonical := trimStr skill
  if canonical ≠ "" then
    { skills := setAdd acc.skills canonical
      lowerMap := mapWrite acc.lowerMap (lowStr canonical) canonical }
  else acc

/-- One alias entry in `_load_skills`: the alias key is written, then the
canonical is added (with its own lowercase self-entry) only if not already
in the skill set. -/
def loadAliasStep (acc : SkillTaxonomy) (p : String × String) : SkillTaxonomy :=
  let m1 := mapWrite acc.lowerMap (lowStr p.1) p.2
  if acc.skills.contains p.2 then
    { acc with lowerMap := m1 }
  else
    { skills := setAdd acc.skills p.2
      lowerMap := mapWrite m1 (lowStr p.2) p.2 }

/-- `SkillTaxonomy._load_skills` (skill_taxonomy.py lines 204-236).  The
dataset file is an external input; `none` models a missing file (the loader
returns early and the taxonomy stays empty — any loader exception is also
caught, leaving whatever was loaded so far).  A job record is modelled by
its list of skill strings. -/
def loadSkills (dataset : Option (List (List String))) : SkillTaxonomy :=
  match dataset with
  | none => ⟨[], []⟩
  | some jobs =>
    let afterData := jobs.foldl (fun acc job => job.foldl loadDatasetStep acc) ⟨[], []⟩
    SKILL_ALIASES.foldl loadAliasStep afterData

/-- `SkillTaxonomy.normalize` (skill_taxonomy.py lines 248-269): strip,
lowercase, collapse internal whitespace, then look up the lowercase map. -/
def normalizeSkill (tax : SkillTaxonomy) (skill : String) : Option String :=
  if skill = "" then none
  else
    let cleaned := collapseWS (lowStr (trimStr skill))
    alistFind tax.lowerMap cleaned

/-- `SkillTaxonomy.is_known_skill`. -/
def isKnownSkill (tax : SkillTaxonomy) (skill : String) : Bool :=
  (normalizeSkill tax skill).isSome

/-! ### Fuzzy matching (rapidfuzz `fuzz.ratio` with `process.extractOne`) -/

/-- One row of the LCS dynamic program: given the previous row (starting at
the diagonal cell), the remaining characters of `b`, and the value of the
cell just computed, produce the rest of the new row. -/
def lcsRowStep (x : Char) : List Char → List ℕ → ℕ → List ℕ
  | [], _, _ => []
  | bj :: brest, prev, newPrev =>
    let diag := prev.headD 0
    let up := prev.tail.headD 0
    let cur := if x = bj then diag + 1 else max newPrev up
    cur :: lcsRowStep x brest prev.tail cur

/-- Length of a longest common subsequence of two character lists. -/
def lcsLen (a b : List Char) : ℕ :=
  let init := List.replicate (b.length + 1) 0
  let final := a.foldl (fun row x => 0 :: lcsRowStep x b row 0) init
  final.getLastD 0

/-- rapidfuzz `fuzz.ratio`: normalized indel similarity scaled to 0-100,
`100 * (1 - dist/(|a|+|b|))` with `dist = |a|+|b| - 2*lcs`. -/
def fuzzRatio (a b : String) : ℚ :=
  let la := a.data.length
  let lb := b.data.length
  if la + lb = 0 then 100
  else (200 * lcsLen a.data b.data : ℚ) / (la + lb)

/-- rapidfuzz `process.extractOne(query, choices, scorer=fuzz.ratio,
score_cutoff=cutoff)`: the first choice attaining the maximum score, or
`none` when no choice reaches the cutoff. -/
def extractOne (query : String) (choices : List String) (cutoff : ℚ) :
    Option (String × ℚ) :=
  choices.foldl (fun best c =>
    let sc := fuzzRatio query c
    match best with
    | none => if sc ≥ cutoff then some (c, sc) else none
    | some (b, bs) => if sc > bs then some (c, sc) else some (b, bs)) none

/-! ### Candidate matching (`SkillExtractor._match`,
skill_extractor.py lines 414-445) -/

/-- Match quality reported by the matcher. -/
inductive MatchType where
  | EXACT
  | FUZZY
  deriving DecidableEq, Repr

/-- `SkillExtractor._match`: denylist rejection, then the static canonical
table, then taxonomy normalization, then (for candidates of length ≥ 4)
fuzzy matching against the taxonomy corpus with cutoff 90. -/
def matchCandidate (tax : SkillTaxonomy) (candidate : String) :
    Option (MatchType × String) :=
  if DENYLIST.contains (lowStr candidate) then none
  else
    match alistFind CANONICAL_SKILLS (lowStr candidate) with
    | some c => some (.EXACT, c)
    | none =>
      match normalizeSkill tax candidate with
      | some c => some (.EXACT, c)
      | none =>
        if candidate.data.length < 4 then none
        else
          match extractOne candidate tax.skills 90 with
          | some (name, _) => some (.FUZZY, name)
          | none => none

/-! ### Sections, tokens and candidate generation
(`ResumeSegmenter` / `SkillExtractor._generate_candidates`) -/

/-- Resume section trust tiers (resume_segmenter.py lines 10-14). -/
inductive SectionType where
  | PRIMARY
  | SECONDARY
  | TERTIARY
  | UNKNOWN
  deriving DecidableEq, Repr

/-- Section multiplier (skill_extractor.py line 352). -/
def sectionMultiplier : SectionType → ℚ
  | .PRIMARY => 2
  | .SECONDARY => 1
  | _ => 1/2

/-- A spaCy token as consumed by the extractor: surface text, lemma, and the
stop-word/punctuation flags.  The spaCy pipeline itself is an external
collaborator; concrete evaluations below use a whitespace tokenizer model
that agrees with spaCy on the inputs involved. -/
structure Token where
  text : String
  lemmaText : String
  isStop : Bool
  isPunct : Bool
  deriving DecidableEq, Repr

/-- Single-token candidates (with slash-splitting) from
`_generate_candidates` step 1: stop words and punctuation are skipped,
tokens of length ≥ 2 are emitted, and any token containing a slash also
emits its stripped parts of length ≥ 2 at the same indices. -/
def singleTokenCands : ℕ → List Token → List (String × ℕ × ℕ)
  | _, [] => []
  | i, t :: rest =>
    let tail := singleTokenCands (i + 1) rest
    if t.isStop || t.isPunct then tail
    else
      let base := if t.text.data.length ≥ 2 then [(t.text, i, i + 1)] else []
      let slashParts :=
        if t.text.data.contains '/' then
          ((splitStrP (· = '/') t.text).map trimStr).filterMap
            (fun part => if part.data.length ≥ 2 then some (part, i, i + 1) else none)
        else []
      base ++ slashParts ++ tail

/-- Slash-compound reconstruction from `_generate_candidates` step 2:
scan for the literal token pattern `TOKEN, "/", TOKEN`, emit the joined
compound over a 3-token span and skip past it. -/
def slashCompounds (i : ℕ) : List String → List (String × ℕ × ℕ)
  | t1 :: t2 :: t3 :: rest =>
    if t2 = "/" then
      (t1 ++ "/" ++ t3, i, i + 3) :: slashCompounds (i + 3) rest
    else
      slashCompounds (i + 1) (t2 :: t3 :: rest)
  | _ => []

/-- `' '.join(tokens[i:i+n])`. -/
def joinSpace : List String → String
  | [] => ""
  | [x] => x
  | x :: rest => x ++ " " ++ joinSpace rest

/-- Contiguous n-grams of width 2-4 over all raw token texts
(`_generate_candidates` step 3), kept when the joined text has length ≥ 3. -/
def ngramCands (tokens : List String) : List (String × ℕ × ℕ) :=
  (List.range' 2 3).flatMap fun n =>
    (List.range (tokens.length + 1 - n)).filterMap fun i =>
      let ngram := joinSpace ((tokens.drop i).take n)
      if ngram.data.length ≥ 3 then some (ngram, i, i + n) else none

/-- `SkillExtractor._generate_candidates` (skill_extractor.py
lines 370-412). -/
def generateCandidates (doc : List Token) : List (String × ℕ × ℕ) :=
  let tokens := doc.map Token.text
  singleTokenCands 0 doc ++ slashCompounds 0 tokens ++ ngramCands tokens

/-! ### Anchoring and block scoring
(`SkillExtractor._check_anchoring` / `_process_text_block`) -/

/-- Is the token an anchor word, matched on its lowercased text or its
lowercased lemma? -/
def isAnchorTok (t : Token) : Bool :=
  ANCHOR_WORDS.contains (lowStr t.text) || ANCHOR_WORDS.contains (lowStr t.lemmaText)

/-- `SkillExtractor._check_anchoring` (skill_extractor.py lines 447-464):
scan indices from `max(0, start-5)` to `min(len(doc), stop+5)`, skipping the
candidate span itself, for an anchor token. -/
def checkAnchoring (doc : List Token) (start stop : ℕ) : Bool :=
  let window := 5
  let contextStart := start - window
  let contextEnd := min doc.length (stop + window)
  (List.range' contextStart (contextEnd - contextStart)).any fun i =>
    if start ≤ i ∧ i < stop then false
    else isAnchorTok (doc.getD i ⟨"", "", false, false⟩)

/-- `re.sub(r'[^\w\s\.\#\+\-\/]', ' ', ...)` keeps word characters,
whitespace and `. # + - /`. -/
def keepPreChar (c : Char) : Bool :=
  c.isAlphanum || c = '_' || pySpace c ||
    c = '.' || c = '#' || c = '+' || c = '-' || c = '/'

/-- `SkillExtractor._preprocess` (skill_extractor.py lines 466-468). -/
def preprocess (text : String) : String :=
  trimStr (collapseWS ⟨text.data.map (fun c => if keepPreChar c then c else ' ')⟩)

/-- Score a single candidate in `_process_text_block`: match it, assign the
base score (1.0 EXACT / 0.8 FUZZY), discard unanchored Secondary-section
candidates, and multiply by the section multiplier. -/
def scoreCandidate (doc : List Token) (tax : SkillTaxonomy)
    (sectionType : SectionType) (cand : String × ℕ × ℕ) : Option (String × ℚ) :=
  match matchCandidate tax cand.1 with
  | none => none
  | some (mt, canonical) =>
    let baseScore : ℚ := if mt = .EXACT then 1 else 8/10
    if sectionType = SectionType.SECONDARY ∧
        checkAnchoring doc cand.2.1 cand.2.2 = false then none
    else some (canonical, baseScore * sectionMultiplier sectionType)

/-- `SkillExtractor._process_text_block` (skill_extractor.py
lines 344-368), with the spaCy pipeline passed in as `tok`. -/
def processTextBlock (tok : String → List Token) (tax : SkillTaxonomy)
    (sectionType : SectionType) (text : String) : List (String × ℚ) :=
  let doc := tok (preprocess text)
  (generateCandidates doc).filterMap (scoreCandidate doc tax sectionType)

/-! ### Score tally and acceptance rule (`SkillExtractor.extract`,
skill_extractor.py lines 197-220) -/

/-- One step of the extract loop over scored occurrences:
`skill_scores[skill] = max(skill_scores[skill], score)` and
`skill_counts[skill] += 1` (both defaultdicts starting at 0). -/
def tallyStep (st : (String → ℚ) × (String → ℕ)) (occ : String × ℚ) :
    (String → ℚ) × (String → ℕ) :=
  (fun k => if k = occ.1 then max (st.1 k) occ.2 else st.1 k,
   fun k => if k = occ.1 then st.2 k + 1 else st.2 k)

/-- `skill_scores` after folding all occurrences. -/
def skillScores (occs : List (String × ℚ)) : String → ℚ :=
  (occs.foldl tallyStep (fun _ => 0, fun _ => 0)).1

/-- `skill_counts` after folding all occurrences. -/
def skillCounts (occs : List (String × ℚ)) : String → ℕ :=
  (occs.foldl tallyStep (fun _ => 0, fun _ => 0)).2

/-- The acceptance rule of `extract`: a tallied skill enters the raw set iff
`max_section_score + min(0.4, 0.2*count) ≥ 1.6` or
(`count ≥ 2` and `max_section_score ≥ 1.0`). -/
def acceptSkill (occs : List (String × ℚ)) (skill : String) : Bool :=
  let baseSectionScore := skillScores occs skill
  let freqBonus := min (4/10 : ℚ) (2/10 * (skillCounts occs skill : ℚ))
  let totalScore := baseSectionScore + freqBonus
  let isHighConf := totalScore ≥ 16/10
  let isRepeatedValid := skillCounts occs skill ≥ 2 ∧ baseSectionScore ≥ 1
  decide isHighConf || decide isRepeatedValid

/-- Keep the first occurrence of each element (Python `dict` key order of
`skill_counts.items()`). -/
def firstDedupAux (seen : List String) : List String → List String
  | [] => []
  | x :: rest =>
    if seen.contains x then firstDedupAux seen rest
    else x :: firstDedupAux (x :: seen) rest

/-- The raw accepted skill set of `extract` (iteration over tallied skills in
first-occurrence order, filtered by the acceptance rule). -/
def rawSkills (occs : List (String × ℚ)) : List String :=
  (firstDedupAux [] (occs.map Prod.fst)).filter (acceptSkill occs)

/-- The individual scores a skill received (specification-side
re-characterization: all occurrences of this skill, in order). -/
def occScoresOf (occs : List (String × ℚ)) (skill : String) : List ℚ :=
  (occs.filter (fun p => p.1 = skill)).map Prod.snd

/-- Specification-side maximum occurrence score of a skill. -/
def maxOccScore (occs : List (String × ℚ)) (skill : String) : ℚ :=
  (occScoresOf occs skill).foldl max 0

/-- Specification-side occurrence count of a skill. -/
def occCount (occs : List (String × ℚ)) (skill : String) : ℕ :=
  (occs.filter (fun p => p.1 = skill)).length

/-- Occurrence list produced by processing a list of classified text blocks
(the inner double loop of `extract`, lines 200-206). -/
def extractOccsFromBlocks (tok : String → List Token) (tax : SkillTaxonomy)
    (blocks : List (SectionType × String)) : List (String × ℚ) :=
  blocks.flatMap fun b => processTextBlock tok tax b.1 b.2

/-- Model of the spaCy tokenizer collaborator: whitespace tokenization with
lemma = lowercased surface form and no stop-word/punctuation flags.  It is
used only on concrete inputs (single words and short alphabetic phrases)
where it coincides with the real `en_core_web_sm` tokenization for the
fields the extractor reads. -/
def simpleTok (s : String) : List Token :=
  (splitWS s).map fun w => ⟨w, lowStr w, false, false⟩

/-! ### Resume segmentation (`app/services/resume_segmenter.py`) -/

/-- `ResumeSegmenter._detect_header` (resume_segmenter.py lines 99-119):
lines of more than 5 whitespace-separated words are never headers; otherwise
the lowercased line, stripped of surrounding colons and whitespace, is
full-matched against the three expanded pattern sets, Primary first. -/
def detectHeader (line : String) : Option SectionType :=
  if (splitWS line).length > 5 then none
  else
    let lineLower := trimStr (stripColons (lowStr line))
    if PRIMARY_HEADER_LITS.contains lineLower then some .PRIMARY
    else if SECONDARY_HEADER_LITS.contains lineLower then some .SECONDARY
    else if TERTIARY_HEADER_LITS.contains lineLower then some .TERTIARY
    else none

/-- After a promotion keyword: optional whitespace then `:` or `-`
(the `\s*[:\-]` part of the line-level patterns). -/
def promoTail (l : List Char) : Bool :=
  match l.dropWhile pySpace with
  | c :: _ => c = ':' || c = '-'
  | [] => false

/-- The anchored alternatives of `PRIMARY_LINE_PATTERNS`
(resume_segmenter.py lines 44-47). -/
def PRIMARY_LINE_STARTS : List String :=
  ["technologies", "tech stack", "built with", "tools", "stack"]

/-- Does one of the anchored patterns match at the start of the line? -/
def startsPromo (l : List Char) : Bool :=
  PRIMARY_LINE_STARTS.any fun alt =>
    startsWithL alt.data l && promoTail (l.drop alt.data.length)

/-- Does `environment\s*[:\-]` match anywhere in the line? -/
def envPromoAux : List Char → Bool
  | [] => false
  | c :: rest =>
    (startsWithL "environment".data (c :: rest) &&
      promoTail ((c :: rest).drop "environment".data.length)) || envPromoAux rest

/-- `ResumeSegmenter._is_primary_line` (resume_segmenter.py
lines 121-127). -/
def isPrimaryLine (line : String) : Bool :=
  let ll := (lowStr line).data
  startsPromo ll || envPromoAux ll

/-- Accumulator of `ResumeSegmenter.segment`: the four section buckets, the
active section type, and the line buffer. -/
structure SegAcc where
  primB : List String
  secB : List String
  terB : List String
  unkB : List String
  cur : SectionType
  buf : List String
  deriving Repr

/-- Append a finished block to a section bucket. -/
def segPush (acc : SegAcc) (sec : SectionType) (block : String) : SegAcc :=
  match sec with
  | .PRIMARY => { acc with primB := acc.primB ++ [block] }
  | .SECONDARY => { acc with secB := acc.secB ++ [block] }
  | .TERTIARY => { acc with terB := acc.terB ++ [block] }
  | .UNKNOWN => { acc with unkB := acc.unkB ++ [block] }

/-- `'\n'.join(...)`. -/
def joinNL : List String → String
  | [] => ""
  | [x] => x
  | x :: rest => x ++ "\n" ++ joinNL rest

/-- Flush a nonempty buffer into the active section's bucket. -/
def segFlush (acc : SegAcc) : SegAcc :=
  if acc.buf = [] then acc
  else { segPush acc acc.cur (joinNL acc.buf) with buf := [] }

/-- Process one raw line of `ResumeSegmenter.segment` (resume_segmenter.py
lines 65-91): skip blanks; on a header, flush the previous section's buffer,
switch the active type, and keep the header line itself only if it contains
a colon; promote matching lines directly into the Primary bucket; buffer
everything else. -/
def segLineStep (acc : SegAcc) (line : String) : SegAcc :=
  let stripped := trimStr line
  if stripped = "" then acc
  else
    match detectHeader stripped with
    | some newType =>
      let acc1 := segFlush acc
      let acc2 := { acc1 with cur := newType }
      if stripped.data.contains ':' then { acc2 with buf := [stripped] }
      else acc2
    | none =>
      if isPrimaryLine stripped then segPush acc .PRIMARY stripped
      else { acc with buf := acc.buf ++ [stripped] }

/-- `ResumeSegmenter.segment` (resume_segmenter.py lines 49-97), returning
the four buckets in the fixed `SectionType` insertion order of the code's
dict comprehension. -/
def segmentText (text : String) : List (SectionType × List String) :=
  if text = "" then
    [(.PRIMARY, []), (.SECONDARY, []), (.TERTIARY, []), (.UNKNOWN, [])]
  else
    let lines := splitStrP (fun c => c = '\n') text
    let acc0 : SegAcc := ⟨[], [], [], [], .UNKNOWN, []⟩
    let acc := segFlush (lines.foldl segLineStep acc0)
    [(.PRIMARY, acc.primB), (.SECONDARY, acc.secB),
     (.TERTIARY, acc.terB), (.UNKNOWN, acc.unkB)]

/-! ### Post-processing (`SkillExtractor._post_process`,
`_normalize_and_deduplicate`, `_split_composite`, `_to_canonical`) -/

/-- `SkillExtractor._to_canonical` (skill_extractor.py lines 325-342). -/
def toCanonical (tax : SkillTaxonomy) (skill : String) : Option String :=
  let lower := trimStr (lowStr skill)
  match alistFind CANONICAL_SKILLS lower with
  | some c => some c
  | none =>
    match normalizeSkill tax skill with
    | some c => some c
    | none => if isKnownSkill tax skill then some skill else none

/-- `SkillExtractor._split_composite` (skill_extractor.py lines 314-323):
known single-entity compounds stay whole, everything else splits on
`/ | , &` with stripped nonempty parts. -/
def splitComposite (skill : String) : List String :=
  if (alistFind CANONICAL_SKILLS (lowStr skill)).isSome then [skill]
  else
    ((splitStrP (fun c => c = '/' || c = '|' || c = ',' || c = '&') skill).map
      trimStr).filter (fun p => p ≠ "")

/-- The canonical names contributed by one skill string in
`_normalize_and_deduplicate` (skill_extractor.py lines 287-312). -/
def canonicalsOf (tax : SkillTaxonomy) (skill : String) : List String :=
  (splitComposite skill).filterMap fun part =>
    let partClean := trimStr part
    if partClean.data.length < 2 then none
    else toCanonical tax partClean

/-- Python `sorted` on strings (code-point lexicographic). -/
def sortStrings (l : List String) : List String :=
  List.insertionSort (fun a b : String => a.data ≤ b.data) l

/-- `SkillExtractor._normalize_and_deduplicate`: the sorted deduplicated
canonical names of all parts (the Python `set` collapses duplicates, the
final `sorted` fixes the order). -/
def normalizeAndDedup (tax : SkillTaxonomy) (skills : List String) : List String :=
  sortStrings (skills.flatMap (canonicalsOf tax)).dedup

/-- Re-validated parts of a comma- or slash-compound in `_post_process`
(skill_extractor.py lines 238-261): each stripped part of length ≥ 2 is kept
as its taxonomy normalization (the `elif is_known` arm cannot fire, since
`is_known_skill` is defined as `normalize ≠ None`). -/
def revalidateParts (tax : SkillTaxonomy) (parts : List String) : List String :=
  parts.filterMap fun part =>
    if part ≠ "" ∧ part.data.length ≥ 2 then
      match normalizeSkill tax part with
      | some canonical => some canonical
      | none => if isKnownSkill tax part then some part else none
    else none

/-- Expansion of one raw skill in `_post_process`: comma compounds (detected
by a `", "` substring, split on `,`) and unknown slash compounds split and
re-validate; everything else passes through unchanged. -/
def expandOne (tax : SkillTaxonomy) (skill : String) : List String :=
  if strContains ", " skill then
    revalidateParts tax ((splitStrP (fun c => c = ',') skill).map trimStr)
  else if skill.data.contains '/' && !(isKnownSkill tax skill) then
    revalidateParts tax ((splitStrP (fun c => c = '/') skill).map trimStr)
  else [skill]

/-- Case-insensitive dedup keeping the first-seen cased representative
(`seen_lower` loop of `_post_process`, lines 263-270). -/
def dedupCIAux (seen : List String) : List String → List String
  | [] => []
  | x :: rest =>
    if seen.contains (lowStr x) then dedupCIAux seen rest
    else x :: dedupCIAux (lowStr x :: seen) rest

/-- Case-insensitive dedup of the expanded skill collection. -/
def dedupCI (l : List String) : List String := dedupCIAux [] l

/-- Abstraction suppression of `_post_process` (skill_extractor.py
lines 272-285): for every rule whose generic term is present (lowercased)
together with at least one specific counterpart, remove the cased element
carrying the generic lowercase form. -/
def suppressAbstractions (deduped : List String) : List String :=
  let skillsLower := deduped.map lowStr
  let toRemove := ABSTRACTION_RULES.filterMap fun rule =>
    if skillsLower.contains rule.1 && rule.2.any (fun sp => skillsLower.contains sp) then
      deduped.find? (fun s => lowStr s = rule.1)
    else none
  deduped.filter (fun s => !(toRemove.contains s))

/-- `SkillExtractor._post_process` (skill_extractor.py lines 228-285)
followed by `_normalize_and_deduplicate`.  The Python sets are modelled as
lists; the order-independence of the result is claim C9. -/
def postProcess (tax : SkillTaxonomy) (skills : List String) : List String :=
  normalizeAndDedup tax (suppressAbstractions (dedupCI (skills.flatMap (expandOne tax))))

/-- `SkillExtractor.extract` (skill_extractor.py lines 186-226): empty or
blank text yields `[]`; otherwise segment, process every block of every
section, tally, apply the acceptance rule, and post-process. -/
def extractSkills (tok : String → List Token) (tax : SkillTaxonomy)
    (text : String) : List String :=
  if text = "" ∨ trimStr text = "" then []
  else
    let blocks := (segmentText text).flatMap fun sec => sec.2.map fun b => (sec.1, b)
    postProcess tax (rawSkills (extractOccsFromBlocks tok tax blocks))

/-- The sort relation used to model Python `sorted` on strings is total. -/
instance : IsTotal String (fun a b : String => a.data ≤ b.data) :=
  ⟨fun a b => le_total a.data b.data⟩

/-- The sort relation is transitive. -/
instance : IsTrans String (fun a b : String => a.data ≤ b.data) :=
  ⟨fun _ _ _ h1 h2 => le_trans h1 h2⟩

/-- The sort relation is antisymmetric. -/
instance : IsAntisymm String (fun a b : String => a.data ≤ b.data) :=
  ⟨fun a b h1 h2 => by
    cases a
    cases b
    exact congrArg String.mk (le_antisymm h1 h2)⟩

/-! ### Taxonomy loading invariants (claim C7) -/

/-- A string originates from the dataset: it is the stripped, nonempty form
of some skill entry of some job record. -/
def dsOrigin (jobs : List (List String)) (v : String) : Prop :=
  ∃ job ∈ jobs, ∃ sk ∈ job, v = trimStr sk ∧ v ≠ ""

/-- Invariant of the dataset phase of `_load_skills`: every map binding
binds the lowercase form of its dataset-originated value, every skill of the
set has its lowercase form bound, and every skill is dataset-originated. -/
def dsInv (jobs : List (List String)) (acc : SkillTaxonomy) : Prop :=
  (∀ k v, alistFind acc.lowerMap k = some v → k = lowStr v ∧ dsOrigin jobs v) ∧
  (∀ s ∈ acc.skills, (alistFind acc.lowerMap (lowStr s)).isSome = true) ∧
  (∀ s ∈ acc.skills, dsOrigin jobs s)

/-- Invariant of the alias phase of `_load_skills`: every reachable binding
is self-keyed or alias-shaped, with dataset- or alias-originated value;
every reachable value is a fixed point of the map; every skill of the set
has its lowercase form bound; every skill has known origin; and every
alias-valued skill is bound to itself. -/
def aliasInv (jobs : List (List String)) (acc : SkillTaxonomy) : Prop :=
  (∀ k v, alistFind acc.lowerMap k = some v →
     (k = lowStr v ∨ ∃ p ∈ SKILL_ALIASES, k = lowStr p.1 ∧ v = p.2) ∧
     (dsOrigin jobs v ∨ v ∈ SKILL_ALIASES.map Prod.snd)) ∧
  (∀ k v, alistFind acc.lowerMap k = some v →
     alistFind acc.lowerMap (lowStr v) = some v) ∧
  (∀ s ∈ acc.skills, (alistFind acc.lowerMap (lowStr s)).isSome = true) ∧
  (∀ s ∈ acc.skills, dsOrigin jobs s ∨ s ∈ SKILL_ALIASES.map Prod.snd) ∧
  (∀ s ∈ acc.skills, s ∈ SKILL_ALIASES.map Prod.snd →
     alistFind acc.lowerMap (lowStr s) = some s)

/-! ### Claims C1 and C2 -/

/-- C1 (counterexample): the claim states that at both entry points a
similarity `s ≤ 0.3` yields a terminal MISSING verdict at the semantic tier
and that arbitration is entered exactly when `0.3 < s < 0.7`.  At the
`analyze_gap_lists` entry point with `s = 0.3` the code routes the
requirement to arbitration instead of classifying it MISSING. -/
theorem C1_counterexample :
    (3/10 : ℚ) ≤ 3/10 ∧
    (gapListsSemantic (3/10) "resume skill").decision = GapDecision.borderline ∧
    (gapListsSemantic (3/10) "resume skill").decision ≠ GapDecision.missing := by
  have hdec : (gapListsSemantic (3/10) "resume skill").decision =
      GapDecision.borderline := by
    unfold gapListsSemantic
    rw [if_neg (by norm_num), if_pos (by norm_num)]
  refine ⟨le_refl _, hdec, ?_⟩
  rw [hdec]
  intro h
  exact absurd h (by decide)

/-- C1 (amended): `GapAnalyzer.analyze` classifies exactly as the claim
states (`s ≥ 0.7` covered with confidence `min((s-0.7)/0.3, 1)` and the best
chunk as evidence, `s ≤ 0.3` missing with confidence `min((0.3-s)/0.3, 1)`,
arbitration iff `0.3 < s < 0.7`); `analyze_gap_lists` instead classifies
`s ≥ 0.7` covered with confidence `round(s, 2)`, routes to arbitration iff
`0.3 ≤ s < 0.7`, and marks `s < 0.3` missing with no recorded confidence. -/
theorem C1_semantic_tier (s : ℚ) (ctx best : String) :
    ((analyzeSemantic s ctx).decision = GapDecision.covered ↔ 7/10 ≤ s) ∧
    ((analyzeSemantic s ctx).decision = GapDecision.missing ↔ s ≤ 3/10) ∧
    ((analyzeSemantic s ctx).decision = GapDecision.borderline ↔
      3/10 < s ∧ s < 7/10) ∧
    (7/10 ≤ s → analyzeSemantic s ctx =
      ⟨GapDecision.covered, some (min ((s - 7/10) / (3/10)) 1), some ctx⟩) ∧
    (s ≤ 3/10 → analyzeSemantic s ctx =
      ⟨GapDecision.missing, some (min ((3/10 - s) / (3/10)) 1), none⟩) ∧
    ((gapListsSemantic s best).decision = GapDecision.covered ↔ 7/10 ≤ s) ∧
    ((gapListsSemantic s best).decision = GapDecision.borderline ↔
      3/10 ≤ s ∧ s < 7/10) ∧
    ((gapListsSemantic s best).decision = GapDecision.missing ↔ s < 3/10) ∧
    (7/10 ≤ s → gapListsSemantic s best =
      ⟨GapDecision.covered, some (round2 s), some best⟩) := by
  unfold analyzeSemantic gapListsSemantic
  split_ifs with h1 h2 h3 h4 <;>
    refine ⟨?_, ?_, ?_, ?_, ?_, ?_, ?_, ?_, ?_⟩ <;>
    simp_all <;> first | rfl | linarith

/-- C1 (witness): at `s = 3/4` the analyzer path records covered with
confidence `min((3/4 - 7/10)/(3/10), 1) = 1/6`, and the gap-lists path
records covered with confidence `round(3/4, 2) = 3/4`. -/
theorem C1_semantic_tier_witness :
    analyzeSemantic (3/4) "chunk" =
      ⟨GapDecision.covered, some (1/6), some "chunk"⟩ ∧
    gapListsSemantic (3/4) "best" =
      ⟨GapDecision.covered, some (3/4), some "best"⟩ := by
  have h := C1_semantic_tier (3/4) "chunk" "best"
  have h1 := h.2.2.2.1 (by norm_num)
  have h2 := h.2.2.2.2.2.2.2.2 (by norm_num)
  constructor
  · rw [h1]; norm_num
  · rw [h2]
    have : round2 (3/4) = 3/4 := by
      norm_num [round2, roundHalfEven]
    rw [this]

/-- C2 (counterexample): the claim states the fallback confidence is exactly
`min(2*|s - 0.5|, 1.0)`; the code rounds that value to two decimals, so at
`s = 0.333` the returned confidence is `0.33` while the claimed formula
gives `0.334`. -/
theorem C2_counterexample :
    (verifySkill ArbResponse.unavailable (333/1000)).map Verification.confidence =
      Except.ok (33/100 : ℚ) ∧
    (33/100 : ℚ) ≠ min (2 * |(333 : ℚ)/1000 - 1/2|) 1 := by
  constructor
  · show Except.ok (thresholdFallback (333/1000)).confidence = _
    norm_num [thresholdFallback, round2, roundHalfEven, abs_of_nonpos]
  · norm_num [abs_of_nonpos]

/-- C2 (amended): whenever the arbitration collaborator is unavailable, its
response is unparseable, lacks a decision field, or carries an unrecognized
decision, `verify_skill` returns (never raises) the deterministic fallback:
decision COVERED iff `s ≥ 0.5`, confidence `round(min(2*|s-0.5|, 1), 2)`
(the claimed formula rounded to two decimals), threshold reasoning; and no
call of `verify_skill` ever yields an error. -/
theorem C2_fallback (resp : ArbResponse) (s : ℚ)
    (h : fallbackTrigger resp = true) :
    verifySkill resp s = Except.ok (thresholdFallback s) ∧
    ((thresholdFallback s).decision = "COVERED" ↔ 1/2 ≤ s) ∧
    ((thresholdFallback s).decision = "MISSING" ↔ s < 1/2) ∧
    (thresholdFallback s).confidence = round2 (min (2 * |s - 1/2|) 1) ∧
    (thresholdFallback s).reasoning = VerifReasoning.thresholdBased ∧
    ∀ r : ArbResponse, ∃ v, verifySkill r s = Except.ok v := by
  refine ⟨?_, ?_, ?_, ?_, ?_, ?_⟩
  · cases resp with
    | unavailable => rfl
    | unparseable => rfl
    | missingDecision => rfl
    | parsed d conf reas evid =>
      simp only [fallbackTrigger, decide_not, Bool.not_eq_eq_eq_not,
        Bool.not_true, decide_eq_false_iff_not] at h
      simp only [verifySkill, if_neg h]
  · simp only [thresholdFallback]
    split_ifs with hge
    · simpa using hge
    · simp only [ge_iff_le] at hge
      constructor
      · intro hc; exact absurd hc (by decide)
      · intro hc; exact absurd hc hge
  · simp only [thresholdFallback]
    split_ifs with hge
    · constructor
      · intro hc; exact absurd hc (by decide)
      · intro hc; linarith [hge]
    · simp only [ge_iff_le, not_le] at hge
      simpa using hge
  · show round2 (min (|s - 1/2| * 2) 1) = round2 (min (2 * |s - 1/2|) 1)
    rw [mul_comm]
  · rfl
  · intro r
    cases r with
    | unavailable => exact ⟨_, rfl⟩
    | unparseable => exact ⟨_, rfl⟩
    | missingDecision => exact ⟨_, rfl⟩
    | parsed d conf reas evid =>
      simp only [verifySkill]
      split_ifs <;> exact ⟨_, rfl⟩

/-- C2 (witness): an unavailable collaborator at `s = 3/4` yields the
fallback with decision COVERED. -/
theorem C2_fallback_witness :
    verifySkill ArbResponse.unavailable (3/4) =
      Except.ok (thresholdFallback (3/4)) ∧
    (thresholdFallback (3/4)).decision = "COVERED" := by
  have h := C2_fallback ArbResponse.unavailable (3/4) rfl
  exact ⟨h.1, (h.2.1).mpr (by norm_num)⟩

/-! ### Claims C3, C4, C10 -/

/-- Occurrence scores of a skill, cons case. -/
theorem occScoresOf_cons (a : String × ℚ) (rest : List (String × ℚ)) (sk : String) :
    occScoresOf (a :: rest) sk =
      if a.1 = sk then a.2 :: occScoresOf rest sk else occScoresOf rest sk := by
  unfold occScoresOf
  by_cases h : a.1 = sk <;> simp [List.filter_cons, h]

/-- Occurrence count of a skill, cons case. -/
theorem occCount_cons (a : String × ℚ) (rest : List (String × ℚ)) (sk : String) :
    occCount (a :: rest) sk =
      (if a.1 = sk then 1 else 0) + occCount rest sk := by
  unfold occCount
  by_cases h : a.1 = sk <;> simp [List.filter_cons, h]
  omega

/-- The score component of the tally fold computes a running maximum over
exactly the occurrences of the given skill. -/
theorem tally_fst_eq (occs : List (String × ℚ)) (f : String → ℚ)
    (g : String → ℕ) (sk : String) :
    (occs.foldl tallyStep (f, g)).1 sk = (occScoresOf occs sk).foldl max (f sk) := by
  induction occs generalizing f g with
  | nil => rfl
  | cons a rest ih =>
    rw [List.foldl_cons]
    simp only [tallyStep]
    rw [ih, occScoresOf_cons]
    by_cases h : a.1 = sk
    · rw [if_pos h, if_pos h.symm, List.foldl_cons]
    · rw [if_neg h, if_neg (fun hh => h hh.symm)]

/-- The count component of the tally fold counts exactly the occurrences of
the given skill. -/
theorem tally_snd_eq (occs : List (String × ℚ)) (f : String → ℚ)
    (g : String → ℕ) (sk : String) :
    (occs.foldl tallyStep (f, g)).2 sk = g sk + occCount occs sk := by
  induction occs generalizing f g with
  | nil => simp [occCount]
  | cons a rest ih =>
    rw [List.foldl_cons]
    simp only [tallyStep]
    rw [ih, occCount_cons]
    by_cases h : a.1 = sk
    · rw [if_pos h, if_pos h.symm]
      omega
    · rw [if_neg h, if_neg (fun hh => h hh.symm)]
      omega

/-- `skill_scores` equals the specification-side maximum occurrence score. -/
theorem skillScores_eq_maxOccScore (occs : List (String × ℚ)) (sk : String) :
    skillScores occs sk = maxOccScore occs sk := by
  unfold skillScores maxOccScore
  exact tally_fst_eq occs (fun _ => 0) (fun _ => 0) sk

/-- `skill_counts` equals the specification-side occurrence count. -/
theorem skillCounts_eq_occCount (occs : List (String × ℚ)) (sk : String) :
    skillCounts occs sk = occCount occs sk := by
  unfold skillCounts occCount
  have := tally_snd_eq occs (fun _ => 0) (fun _ => 0) sk
  simpa [occCount] using this

/-- C3: for every skill with at least one tallied occurrence, the extractor
admits it into the raw accepted set iff
`max_section_score + min(0.4, 0.2*count) ≥ 1.6` or
(`count ≥ 2` and `max_section_score ≥ 1.0`); the stored maximum is the
maximum of the individual occurrence scores (never a sum), and appending a
repeat occurrence that does not exceed the current maximum leaves the stored
maximum unchanged while incrementing only the count. -/
theorem C3_acceptance_rule (occs : List (String × ℚ)) (sk : String)
    (h : 0 < occCount occs sk) :
    (acceptSkill occs sk = true ↔
      maxOccScore occs sk + min (4/10 : ℚ) (2/10 * (occCount occs sk : ℚ)) ≥ 16/10 ∨
        (2 ≤ occCount occs sk ∧ 1 ≤ maxOccScore occs sk)) ∧
    skillScores occs sk = maxOccScore occs sk ∧
    skillCounts occs sk = occCount occs sk ∧
    (∀ v : ℚ, v ≤ skillScores occs sk →
      skillScores (occs ++ [(sk, v)]) sk = skillScores occs sk ∧
      skillCounts (occs ++ [(sk, v)]) sk = skillCounts occs sk + 1) := by
  refine ⟨?_, skillScores_eq_maxOccScore occs sk, skillCounts_eq_occCount occs sk, ?_⟩
  · unfold acceptSkill
    rw [Bool.or_eq_true, decide_eq_true_iff, decide_eq_true_iff,
      skillScores_eq_maxOccScore, skillCounts_eq_occCount]
  · intro v hv
    have hmax : maxOccScore (occs ++ [(sk, v)]) sk = max (maxOccScore occs sk) v := by
      unfold maxOccScore occScoresOf
      rw [List.filter_append, List.map_append, List.foldl_append]
      simp [List.filter]
    have hcnt : occCount (occs ++ [(sk, v)]) sk = occCount occs sk + 1 := by
      unfold occCount
      rw [List.filter_append, List.length_append]
      simp [List.filter]
    constructor
    · rw [skillScores_eq_maxOccScore, skillScores_eq_maxOccScore, hmax]
      rw [skillScores_eq_maxOccScore] at hv
      exact max_eq_left hv
    · rw [skillCounts_eq_occCount, skillCounts_eq_occCount, hcnt]

/-- C3 (witness): a skill with two occurrences, scores 2 and 1/2, has
occurrence count 2 and is accepted. -/
theorem C3_acceptance_rule_witness :
    0 < occCount [("Python", (2:ℚ)), ("Python", (1:ℚ)/2)] "Python" ∧
    acceptSkill [("Python", (2:ℚ)), ("Python", (1:ℚ)/2)] "Python" = true := by
  have h0 : 0 < occCount [("Python", (2:ℚ)), ("Python", (1:ℚ)/2)] "Python" := by
    norm_num [occCount, List.filter]
  refine ⟨h0, (C3_acceptance_rule _ _ h0).1.mpr ?_⟩
  have hm : maxOccScore [("Python", (2:ℚ)), ("Python", (1:ℚ)/2)] "Python" = 2 := by
    norm_num [maxOccScore, occScoresOf, List.filter, List.foldl]
  have hc : occCount [("Python", (2:ℚ)), ("Python", (1:ℚ)/2)] "Python" = 2 := by
    norm_num [occCount, List.filter]
  rw [hm, hc]
  left
  norm_num

/-- C4: a Secondary-section candidate contributes nothing iff it fails to
match or fails anchoring; anchoring holds iff some token strictly inside the
±5-token window but outside the candidate span is an anchor word (lowercased
text or lemma in the fixed anchor set); and for Primary, Tertiary and
Unknown sections the scored result never depends on the surrounding
document, i.e. no anchor check happens. -/
theorem C4_secondary_anchoring (doc : List Token) (tax : SkillTaxonomy)
    (cand : String × ℕ × ℕ) :
    (scoreCandidate doc tax SectionType.SECONDARY cand = none ↔
      matchCandidate tax cand.1 = none ∨
        checkAnchoring doc cand.2.1 cand.2.2 = false) ∧
    (checkAnchoring doc cand.2.1 cand.2.2 = true ↔
      ∃ i, i < doc.length ∧ cand.2.1 - 5 ≤ i ∧ i < cand.2.2 + 5 ∧
        ¬(cand.2.1 ≤ i ∧ i < cand.2.2) ∧
        ∃ t, doc[i]? = some t ∧
          (lowStr t.text ∈ ANCHOR_WORDS ∨ lowStr t.lemmaText ∈ ANCHOR_WORDS)) ∧
    (∀ sec, sec ≠ SectionType.SECONDARY → ∀ doc' : List Token,
      scoreCandidate doc' tax sec cand = scoreCandidate doc tax sec cand) := by
  refine ⟨?_, ?_, ?_⟩
  · unfold scoreCandidate
    cases hm : matchCandidate tax cand.1 with
    | none => simp
    | some mc =>
      obtain ⟨mt, canonical⟩ := mc
      dsimp only
      by_cases ha : checkAnchoring doc cand.2.1 cand.2.2 = false
      · rw [if_pos ⟨rfl, ha⟩]
        simp [ha]
      · rw [if_neg (fun hc => ha hc.2)]
        simp [ha]
  · unfold checkAnchoring
    rw [List.any_eq_true]
    constructor
    · rintro ⟨i, hi, hp⟩
      rw [List.mem_range'_1] at hi
      have hlen : i < doc.length := by omega
      have hwin : i < cand.2.2 + 5 := by omega
      have hlow : cand.2.1 - 5 ≤ i := hi.1
      by_cases hspan : cand.2.1 ≤ i ∧ i < cand.2.2
      · rw [if_pos hspan] at hp
        exact absurd hp (by simp)
      · rw [if_neg hspan] at hp
        refine ⟨i, hlen, hlow, hwin, hspan, doc.getD i ⟨"", "", false, false⟩, ?_, ?_⟩
        · rw [List.getD_eq_getElem _ _ hlen, List.getElem?_eq_getElem hlen]
        · unfold isAnchorTok at hp
          rw [Bool.or_eq_true] at hp
          rcases hp with h1 | h1
          · left
            have : List.elem (lowStr (doc.getD i ⟨"", "", false, false⟩).text) ANCHOR_WORDS = true := h1
            exact List.elem_iff.mp this
          · right
            have : List.elem (lowStr (doc.getD i ⟨"", "", false, false⟩).lemmaText) ANCHOR_WORDS = true := h1
            exact List.elem_iff.mp this
    · rintro ⟨i, hlen, hlow, hwin, hspan, t, ht, hanch⟩
      refine ⟨i, ?_, ?_⟩
      · rw [List.mem_range'_1]
        constructor
        · exact hlow
        · have : min doc.length (cand.2.2 + 5) - (cand.2.1 - 5) + (cand.2.1 - 5) =
              min doc.length (cand.2.2 + 5) := by omega
          omega
      · rw [if_neg hspan]
        have htg : doc.getD i ⟨"", "", false, false⟩ = t := by
          rw [List.getD_eq_getElem?_getD, ht]
          rfl
        rw [htg]
        unfold isAnchorTok
        rw [Bool.or_eq_true]
        rcases hanch with h1 | h1
        · left
          exact List.elem_iff.mpr h1
        · right
          exact List.elem_iff.mpr h1
  · intro sec hsec doc'
    unfold scoreCandidate
    cases matchCandidate tax cand.1 with
    | none => rfl
    | some mc =>
      obtain ⟨mt, canonical⟩ := mc
      dsimp only
      rw [if_neg (show ¬(sec = SectionType.SECONDARY ∧
            checkAnchoring doc' cand.2.1 cand.2.2 = false) from fun hc => hsec hc.1),
        if_neg (show ¬(sec = SectionType.SECONDARY ∧
            checkAnchoring doc cand.2.1 cand.2.2 = false) from fun hc => hsec hc.1)]

/-- C4 (witness): in the two-token document "Built Python", the candidate
"Python" at span [1,2) in a Secondary section is anchored by "built". -/
theorem C4_secondary_anchoring_witness :
    checkAnchoring [⟨"Built", "build", false, false⟩,
      ⟨"Python", "python", false, false⟩] 1 2 = true := by
  have h := C4_secondary_anchoring
    [⟨"Built", "build", false, false⟩, ⟨"Python", "python", false, false⟩]
    (loadSkills none) ("Python", 1, 2)
  refine h.2.1.mpr ⟨0, ?_, ?_, ?_, ?_, ⟨"Built", "build", false, false⟩, rfl, ?_⟩ <;>
    decide

/-- Any score emitted for a candidate is at most the section multiplier
(the base score is 1.0 or 0.8). -/
theorem scoreCandidate_le (doc : List Token) (tax : SkillTaxonomy)
    (sec : SectionType) (cand : String × ℕ × ℕ) (c : String) (v : ℚ)
    (h : scoreCandidate doc tax sec cand = some (c, v)) :
    v ≤ sectionMultiplier sec := by
  unfold scoreCandidate at h
  cases hm : matchCandidate tax cand.1 with
  | none => rw [hm] at h; exact absurd h (by simp)
  | some mc =>
    obtain ⟨mt, canonical⟩ := mc
    rw [hm] at h
    dsimp only at h
    by_cases hc : sec = SectionType.SECONDARY ∧ checkAnchoring doc cand.2.1 cand.2.2 = false
    · rw [if_pos hc] at h
      exact absurd h (by simp)
    · rw [if_neg hc] at h
      have hv : v = (if mt = MatchType.EXACT then (1:ℚ) else 8/10) * sectionMultiplier sec := by
        have := h
        simp only [Option.some_inj, Prod.mk.injEq] at this
        exact this.2.symm
      rw [hv]
      have hmult : (0:ℚ) ≤ sectionMultiplier sec := by
        cases sec <;> norm_num [sectionMultiplier]
      have hbase : (if mt = MatchType.EXACT then (1:ℚ) else 8/10) ≤ 1 := by
        split_ifs <;> norm_num
      calc (if mt = MatchType.EXACT then (1:ℚ) else 8/10) * sectionMultiplier sec
          ≤ 1 * sectionMultiplier sec := mul_le_mul_of_nonneg_right hbase hmult
        _ = sectionMultiplier sec := one_mul _

/-- A running maximum stays below a bound that dominates the seed and every
element. -/
theorem foldl_max_le_of (l : List ℚ) (init b : ℚ) (h0 : init ≤ b)
    (h : ∀ x ∈ l, x ≤ b) : l.foldl max init ≤ b := by
  induction l generalizing init with
  | nil => exact h0
  | cons a rest ih =>
    rw [List.foldl_cons]
    exact ih _ (max_le h0 (h a (by simp))) (fun x hx => h x (by simp [hx]))

/-- C10: a skill whose occurrences all come from Tertiary or Unknown blocks
has maximum section score at most `1.0 × 0.5 = 0.5`, and is never admitted
into the raw accepted set, whatever its occurrence count. -/
theorem C10_low_trust_never_accepted (tok : String → List Token)
    (tax : SkillTaxonomy) (blocks : List (SectionType × String)) (sk : String)
    (h : ∀ b ∈ blocks,
      (∃ p ∈ processTextBlock tok tax b.1 b.2, p.1 = sk) →
        b.1 = SectionType.TERTIARY ∨ b.1 = SectionType.UNKNOWN) :
    maxOccScore (extractOccsFromBlocks tok tax blocks) sk ≤ 1/2 ∧
    acceptSkill (extractOccsFromBlocks tok tax blocks) sk = false := by
  have hocc : ∀ x ∈ occScoresOf (extractOccsFromBlocks tok tax blocks) sk, x ≤ 1/2 := by
    intro x hx
    unfold occScoresOf at hx
    rw [List.mem_map] at hx
    obtain ⟨p, hp, hpx⟩ := hx
    rw [List.mem_filter] at hp
    obtain ⟨hpmem, hpsk⟩ := hp
    unfold extractOccsFromBlocks at hpmem
    rw [List.mem_flatMap] at hpmem
    obtain ⟨b, hb, hpb⟩ := hpmem
    have hsect := h b hb ⟨p, hpb, by simpa using hpsk⟩
    unfold processTextBlock at hpb
    rw [List.mem_filterMap] at hpb
    obtain ⟨cand, _, hcand⟩ := hpb
    have hle : p.2 ≤ sectionMultiplier b.1 := by
      have : scoreCandidate (tok (preprocess b.2)) tax b.1 cand = some (p.1, p.2) := by
        simpa using hcand
      exact scoreCandidate_le _ _ _ _ _ _ this
    have hmul : sectionMultiplier b.1 = 1/2 := by
      rcases hsect with hs | hs <;> rw [hs] <;> rfl
    rw [hmul] at hle
    rw [← hpx]
    exact hle
  have hmax : maxOccScore (extractOccsFromBlocks tok tax blocks) sk ≤ 1/2 :=
    foldl_max_le_of _ _ _ (by norm_num) hocc
  refine ⟨hmax, ?_⟩
  unfold acceptSkill
  rw [Bool.or_eq_false_iff, decide_eq_false_iff_not, decide_eq_false_iff_not]
  rw [skillScores_eq_maxOccScore, skillCounts_eq_occCount]
  constructor
  · intro hge
    have hbonus : min (4/10 : ℚ)
        (2/10 * (occCount (extractOccsFromBlocks tok tax blocks) sk : ℚ)) ≤ 4/10 :=
      min_le_left _ _
    linarith
  · rintro ⟨-, hge⟩
    linarith

/-- C10 (witness): the single Unknown-section block "PYTHON" yields an
occurrence of "Python" scored 0.5, and "Python" is rejected. -/
theorem C10_low_trust_never_accepted_witness :
    acceptSkill (extractOccsFromBlocks simpleTok (loadSkills none)
      [(SectionType.UNKNOWN, "PYTHON")]) "Python" = false := by
  refine (C10_low_trust_never_accepted simpleTok (loadSkills none)
    [(SectionType.UNKNOWN, "PYTHON")] "Python" ?_).2
  intro b hb _
  rw [List.mem_singleton] at hb
  rw [hb]
  exact Or.inr rfl

/-! ### Case-invariance infrastructure for claim C9.

Every post-processing stage factors through `lowStr`: these lemmas make
that precise, starting from arithmetic facts about `lowChar`. -/

/-- `Char.ofNat` of a small code point has that code point. -/
theorem toNat_ofNat_small (n : ℕ) (h : n < 55296) : (Char.ofNat n).toNat = n := by
  unfold Char.ofNat
  rw [dif_pos (Or.inl h)]
  unfold Char.ofNatAux Char.toNat UInt32.toNat
  simp

/-- Characters with equal code points are equal. -/
theorem char_eq_of_toNat (a b : Char) (h : a.toNat = b.toNat) : a = b := by
  apply Char.eq_of_val_eq
  apply UInt32.eq_of_toBitVec_eq
  exact BitVec.toNat_injective h

/-- `Char` order is code-point order. -/
theorem char_le_iff (a b : Char) : a ≤ b ↔ a.toNat ≤ b.toNat := Iff.rfl

/-- Lowering an upper-case letter adds 32 to the code point. -/
theorem lowChar_toNat_of_upper (c : Char) (h : 'A' ≤ c ∧ c ≤ 'Z') :
    (lowChar c).toNat = c.toNat + 32 := by
  unfold lowChar
  rw [if_pos h]
  have h2 : c.toNat ≤ 90 := (char_le_iff c 'Z').mp h.2
  exact toNat_ofNat_small _ (by omega)

/-- Lowering anything except an upper-case letter is the identity. -/
theorem lowChar_eq_self (c : Char) (h : ¬('A' ≤ c ∧ c ≤ 'Z')) : lowChar c = c := by
  unfold lowChar
  exact if_neg h

/-- A lowered character equals a fixed non-letter character iff the original
does (the fixed character being neither a lower- nor an upper-case
letter). -/
theorem lowChar_eq_lit (c d : Char) (hd1 : ¬(97 ≤ d.toNat ∧ d.toNat ≤ 122))
    (hd2 : ¬(65 ≤ d.toNat ∧ d.toNat ≤ 90)) : lowChar c = d ↔ c = d := by
  by_cases h : 'A' ≤ c ∧ c ≤ 'Z'
  · have h65 : 65 ≤ c.toNat := (char_le_iff 'A' c).mp h.1
    have h90 : c.toNat ≤ 90 := (char_le_iff c 'Z').mp h.2
    have hlow := lowChar_toNat_of_upper c h
    constructor
    · intro he
      exact absurd (he ▸ hlow) (by omega)
    · intro he
      subst he
      exact absurd ⟨h65, h90⟩ hd2
  · rw [lowChar_eq_self c h]

/-- Lowering is idempotent. -/
theorem lowChar_idem (c : Char) : lowChar (lowChar c) = lowChar c := by
  by_cases h : 'A' ≤ c ∧ c ≤ 'Z'
  · have hlow := lowChar_toNat_of_upper c h
    have h90 : c.toNat ≤ 90 := (char_le_iff c 'Z').mp h.2
    apply lowChar_eq_self
    intro hc
    have h2 := (char_le_iff (lowChar c) 'Z').mp hc.2
    rw [hlow] at h2
    have hZ : ('Z').toNat = 90 := rfl
    rw [hZ] at h2
    have h65 : ('A').toNat ≤ c.toNat := (char_le_iff 'A' c).mp h.1
    have hA : ('A').toNat = 65 := rfl
    rw [hA] at h65
    omega
  · rw [lowChar_eq_self c h]
    exact lowChar_eq_self c h

/-- Lowering never maps into or out of Python's whitespace class. -/
theorem pySpace_lowChar (c : Char) : pySpace (lowChar c) = pySpace c := by
  unfold pySpace
  have h1 := lowChar_eq_lit c ' ' (by decide) (by decide)
  have h2 := lowChar_eq_lit c '\t' (by decide) (by decide)
  have h3 := lowChar_eq_lit c '\n' (by decide) (by decide)
  have h4 := lowChar_eq_lit c '\x0d' (by decide) (by decide)
  have h5 := lowChar_eq_lit c '\x0b' (by decide) (by decide)
  have h6 := lowChar_eq_lit c '\x0c' (by decide) (by decide)
  rw [decide_eq_decide.mpr h1, decide_eq_decide.mpr h2, decide_eq_decide.mpr h3,
    decide_eq_decide.mpr h4, decide_eq_decide.mpr h5, decide_eq_decide.mpr h6]

/-- Composing lowering with itself is lowering. -/
theorem lowChar_comp_idem : (lowChar ∘ lowChar) = lowChar := by
  funext c
  exact lowChar_idem c

/-- `lowStr` is idempotent. -/
theorem lowStr_idem (s : String) : lowStr (lowStr s) = lowStr s := by
  unfold lowStr
  simp only [List.map_map, lowChar_comp_idem]

/-- Composing a lowering-invariant predicate with lowering changes
nothing. -/
theorem pySpace_comp_lowChar : (pySpace ∘ lowChar) = pySpace := by
  funext c
  exact pySpace_lowChar c

/-- Stripping with a lowering-invariant predicate commutes with lowering. -/
theorem stripList_map_low (p : Char → Bool) (hp : (p ∘ lowChar) = p)
    (l : List Char) :
    stripList p (l.map lowChar) = (stripList p l).map lowChar := by
  unfold stripList
  rw [List.dropWhile_map, hp, ← List.map_reverse, List.dropWhile_map, hp,
    ← List.map_reverse]

/-- Stripping commutes with lowering. -/
theorem trimStr_lowStr (s : String) : trimStr (lowStr s) = lowStr (trimStr s) := by
  unfold trimStr lowStr
  exact congrArg String.mk (stripList_map_low pySpace pySpace_comp_lowChar s.data)

/-- Lowering preserves emptiness. -/
theorem lowStr_eq_empty (s : String) : lowStr s = "" ↔ s = "" := by
  unfold lowStr
  constructor
  · intro h
    have : s.data.map lowChar = [] := congrArg String.data h
    rcases s with ⟨d⟩
    cases d with
    | nil => rfl
    | cons c r => simp at this
  · intro h
    subst h
    rfl

/-- Lowering preserves length. -/
theorem lowStr_length (s : String) : (lowStr s).data.length = s.data.length := by
  unfold lowStr
  exact List.length_map _ _

/-- `splitListP` never returns an empty segment list. -/
theorem splitListP_ne_nil (p : Char → Bool) (l : List Char) :
    splitListP p l ≠ [] := by
  cases l with
  | nil => simp [splitListP]
  | cons c rest =>
    simp only [splitListP]
    by_cases hc : p c = true
    · rw [if_pos hc]
      simp
    · rw [if_neg hc]
      cases splitListP p rest <;> simp

/-- Splitting with a lowering-invariant predicate commutes with lowering. -/
theorem splitListP_map_low (p : Char → Bool) (hp : ∀ c, p (lowChar c) = p c)
    (l : List Char) :
    splitListP p (l.map lowChar) = (splitListP p l).map (List.map lowChar) := by
  induction l with
  | nil => rfl
  | cons c rest ih =>
    simp only [List.map_cons]
    unfold splitListP
    rw [hp c, ih]
    by_cases hc : p c = true
    · rw [if_pos hc, if_pos hc]
      rfl
    · rw [if_neg hc, if_neg hc]
      cases hr : splitListP p rest with
      | nil => exact absurd hr (splitListP_ne_nil p rest)
      | cons seg segs => rfl

/-- Prefix matching against a pattern of characters fixed by lowering is
unchanged by lowering. -/
theorem startsWithL_map_low (pat : List Char)
    (hpat : ∀ d ∈ pat, ∀ c, lowChar c = d ↔ c = d) :
    ∀ l : List Char, startsWithL pat (l.map lowChar) = startsWithL pat l := by
  induction pat with
  | nil => intro l; rfl
  | cons d ds ih =>
    intro l
    cases l with
    | nil => rfl
    | cons c cs =>
      simp only [List.map_cons]
      unfold startsWithL
      have hd : (d = lowChar c) ↔ (d = c) := by
        rw [eq_comm, hpat d (by simp) c, eq_comm]
      rw [decide_eq_decide.mpr hd, ih (fun e he c' => hpat e (by simp [he]) c') cs]

/-- Substring search for a pattern of characters fixed by lowering is
unchanged by lowering. -/
theorem containsSub_map_low (pat : List Char)
    (hpat : ∀ d ∈ pat, ∀ c, lowChar c = d ↔ c = d) :
    ∀ l : List Char, containsSub pat (l.map lowChar) = containsSub pat l := by
  intro l
  induction l with
  | nil => rfl
  | cons c cs ih =>
    simp only [List.map_cons]
    unfold containsSub
    rw [ih]
    have := startsWithL_map_low pat hpat (c :: cs)
    simp only [List.map_cons] at this
    rw [this]

/-- Whitespace collapsing commutes with lowering. -/
theorem collapseWSAux_map_low (b : Bool) (l : List Char) :
    collapseWSAux b (l.map lowChar) = (collapseWSAux b l).map lowChar := by
  induction l generalizing b with
  | nil => rfl
  | cons c rest ih =>
    simp only [List.map_cons]
    unfold collapseWSAux
    rw [pySpace_lowChar c]
    by_cases hc : pySpace c = true
    · rw [if_pos hc, if_pos hc]
      cases b with
      | true => exact ih true
      | false =>
        simp only [Bool.false_eq_true, if_false, List.map_cons]
        rw [ih true]
        have hsp : lowChar ' ' = ' ' := rfl
        rw [hsp]
    · rw [if_neg hc, if_neg hc]
      simp only [List.map_cons]
      rw [ih false]

/-- `collapseWS` commutes with lowering. -/
theorem collapseWS_lowStr (s : String) :
    collapseWS (lowStr s) = lowStr (collapseWS s) := by
  unfold collapseWS lowStr
  exact congrArg String.mk (collapseWSAux_map_low false s.data)

/-- The cleaned key used by `normalize` is a function of the lowercased
input. -/
theorem normalizeSkill_low (tax : SkillTaxonomy) (s : String) :
    normalizeSkill tax (lowStr s) = normalizeSkill tax s := by
  unfold normalizeSkill
  rw [if_congr (lowStr_eq_empty s) rfl rfl]
  by_cases h : s = ""
  · rw [if_pos h, if_pos h]
  · rw [if_neg h, if_neg h]
    have hkey : collapseWS (lowStr (trimStr (lowStr s))) =
        collapseWS (lowStr (trimStr s)) := by
      rw [trimStr_lowStr, lowStr_idem]
    simp only [hkey]

/-- `normalize` is case-insensitive. -/
theorem normalizeSkill_ci (tax : SkillTaxonomy) {s t : String}
    (h : lowStr s = lowStr t) : normalizeSkill tax s = normalizeSkill tax t := by
  rw [← normalizeSkill_low tax s, ← normalizeSkill_low tax t, h]

/-- `is_known_skill` is case-insensitive. -/
theorem isKnownSkill_ci (tax : SkillTaxonomy) {s t : String}
    (h : lowStr s = lowStr t) : isKnownSkill tax s = isKnownSkill tax t := by
  unfold isKnownSkill
  rw [normalizeSkill_ci tax h]

/-- `_to_canonical` never returns its third (`is_known`) arm: it reduces to
the static table lookup or else taxonomy normalization. -/
theorem toCanonical_eq_or (tax : SkillTaxonomy) (s : String) :
    toCanonical tax s =
      (alistFind CANONICAL_SKILLS (trimStr (lowStr s))).or (normalizeSkill tax s) := by
  unfold toCanonical
  dsimp only
  cases hfind : alistFind CANONICAL_SKILLS (trimStr (lowStr s)) with
  | some c => rfl
  | none =>
    cases hn : normalizeSkill tax s with
    | some c => rfl
    | none =>
      unfold isKnownSkill
      rw [hn]
      rfl

/-- `_to_canonical` is case-insensitive. -/
theorem toCanonical_ci (tax : SkillTaxonomy) {s t : String}
    (h : lowStr s = lowStr t) : toCanonical tax s = toCanonical tax t := by
  rw [toCanonical_eq_or, toCanonical_eq_or, h, normalizeSkill_ci tax h]

/-- Lowering a trimmed string has the length of the trimmed string. -/
theorem trim_length_ci {s t : String} (h : lowStr s = lowStr t) :
    (trimStr s).data.length = (trimStr t).data.length := by
  have hs := lowStr_length (trimStr s)
  have ht := lowStr_length (trimStr t)
  rw [← trimStr_lowStr] at hs ht
  rw [h] at hs
  omega

/-- Trimming preserves lowered equality. -/
theorem trimStr_low_ci {s t : String} (h : lowStr s = lowStr t) :
    lowStr (trimStr s) = lowStr (trimStr t) := by
  rw [← trimStr_lowStr, ← trimStr_lowStr, h]

/-- `filterMap` with a case-insensitive function agrees on lists with equal
lowered images. -/
theorem filterMap_ci (f : String → Option String)
    (hf : ∀ p q, lowStr p = lowStr q → f p = f q) :
    ∀ L M : List String, L.map lowStr = M.map lowStr →
      L.filterMap f = M.filterMap f := by
  intro L
  induction L with
  | nil =>
    intro M h
    cases M with
    | nil => rfl
    | cons y ys => exact absurd h (by simp)
  | cons x xs ih =>
    intro M h
    cases M with
    | nil => exact absurd h (by simp)
    | cons y ys =>
      simp only [List.map_cons, List.cons.injEq] at h
      rw [List.filterMap_cons, List.filterMap_cons, hf x y h.1, ih ys h.2]

/-- Filtering out empties preserves equality of lowered images. -/
theorem filter_nonempty_low_ci :
    ∀ L M : List String, L.map lowStr = M.map lowStr →
      (L.filter (fun p => p ≠ "")).map lowStr =
        (M.filter (fun p => p ≠ "")).map lowStr := by
  intro L
  induction L with
  | nil =>
    intro M h
    cases M with
    | nil => rfl
    | cons y ys => exact absurd h (by simp)
  | cons x xs ih =>
    intro M h
    cases M with
    | nil => exact absurd h (by simp)
    | cons y ys =>
      simp only [List.map_cons, List.cons.injEq] at h
      have hne : (x ≠ "") ↔ (y ≠ "") :=
        not_congr (by rw [← lowStr_eq_empty x, ← lowStr_eq_empty y, h.1])
      rw [List.filter_cons, List.filter_cons]
      by_cases hy : y = ""
      · have hx : x = "" := by
          by_contra hx
          exact (hne.mp hx) hy
        rw [if_neg (by simp [hx]), if_neg (by simp [hy])]
        exact ih ys h.2
      · rw [if_pos (by simp [hne.mpr hy]), if_pos (by simp [hy])]
        rw [List.map_cons, List.map_cons, h.1, ih ys h.2]

/-- String-level splitting with a lowering-invariant predicate commutes with
lowering. -/
theorem splitStrP_low (p : Char → Bool) (hp : ∀ c, p (lowChar c) = p c)
    (s : String) : splitStrP p (lowStr s) = (splitStrP p s).map lowStr := by
  unfold splitStrP lowStr
  rw [splitListP_map_low p hp s.data]
  rw [List.map_map, List.map_map]
  rfl

/-- Trimming each segment then lowering equals lowering then trimming. -/
theorem mapTrim_low (L : List String) :
    (L.map trimStr).map lowStr = (L.map lowStr).map trimStr := by
  rw [List.map_map, List.map_map]
  apply List.map_congr_left
  intro x _
  exact (trimStr_lowStr x).symm

/-- Element search for a character fixed by lowering is unchanged by
lowering. -/
theorem contains_lit_map_low (d : Char) (hd : ∀ c, lowChar c = d ↔ c = d) :
    ∀ l : List Char, (l.map lowChar).contains d = l.contains d := by
  intro l
  induction l with
  | nil => rfl
  | cons c cs ih =>
    simp only [List.map_cons, List.contains_cons, ih]
    have hbeq : (d == lowChar c) = (d == c) := by
      by_cases hcd : c = d
      · have h1 : lowChar c = d := (hd c).mpr hcd
        rw [h1, hcd]
      · have h2 : lowChar c ≠ d := fun he => hcd ((hd c).mp he)
        have e1 : (d == lowChar c) = false := beq_eq_false_iff_ne.mpr (fun he => h2 he.symm)
        have e2 : (d == c) = false := beq_eq_false_iff_ne.mpr (fun he => hcd he.symm)
        rw [e1, e2]
    rw [hbeq]

/-- The composite-splitting delimiter class is lowering-invariant. -/
theorem delims_lowChar (c : Char) :
    ((lowChar c = '/' : Bool) || (lowChar c = '|' : Bool) ||
      (lowChar c = ',' : Bool) || (lowChar c = '&' : Bool)) =
    ((c = '/' : Bool) || (c = '|' : Bool) || (c = ',' : Bool) || (c = '&' : Bool)) := by
  rw [decide_eq_decide.mpr (lowChar_eq_lit c '/' (by decide) (by decide)),
    decide_eq_decide.mpr (lowChar_eq_lit c '|' (by decide) (by decide)),
    decide_eq_decide.mpr (lowChar_eq_lit c ',' (by decide) (by decide)),
    decide_eq_decide.mpr (lowChar_eq_lit c '&' (by decide) (by decide))]

/-- `_split_composite` produces lists with equal lowered images on inputs
with equal lowered forms. -/
theorem splitComposite_low {s t : String} (h : lowStr s = lowStr t) :
    (splitComposite s).map lowStr = (splitComposite t).map lowStr := by
  unfold splitComposite
  rw [h]
  by_cases hc : (alistFind CANONICAL_SKILLS (lowStr t)).isSome = true
  · rw [if_pos hc, if_pos hc]
    simp only [List.map_cons, List.map_nil]
    rw [show lowStr s = lowStr t from h]
  · rw [if_neg hc, if_neg hc]
    apply filter_nonempty_low_ci
    rw [mapTrim_low, mapTrim_low]
    congr 1
    have hsplit : ∀ u : String,
        (splitStrP (fun c => c = '/' || c = '|' || c = ',' || c = '&') u).map lowStr =
        splitStrP (fun c => c = '/' || c = '|' || c = ',' || c = '&') (lowStr u) := by
      intro u
      exact (splitStrP_low _ (fun c => delims_lowChar c) u).symm
    rw [hsplit s, hsplit t, h]

/-- The canonical names contributed by a skill depend only on its lowered
form. -/
theorem canonicalsOf_ci (tax : SkillTaxonomy) {s t : String}
    (h : lowStr s = lowStr t) : canonicalsOf tax s = canonicalsOf tax t := by
  unfold canonicalsOf
  apply filterMap_ci
  · intro p q hpq
    dsimp only
    have hlen := trim_length_ci hpq
    rw [hlen]
    by_cases hl : (trimStr q).data.length < 2
    · rw [if_pos hl, if_pos hl]
    · rw [if_neg hl, if_neg hl]
      exact toCanonical_ci tax (trimStr_low_ci hpq)
  · exact splitComposite_low h

/-- The re-validation arm of `_post_process` always resolves through the
taxonomy: its `is_known` arm cannot fire. -/
theorem revalidateParts_eq (tax : SkillTaxonomy) (parts : List String) :
    revalidateParts tax parts = parts.filterMap (fun part =>
      if part ≠ "" ∧ part.data.length ≥ 2 then normalizeSkill tax part else none) := by
  unfold revalidateParts
  congr 1
  funext part
  by_cases hp : part ≠ "" ∧ part.data.length ≥ 2
  · rw [if_pos hp, if_pos hp]
    cases hn : normalizeSkill tax part with
    | some c => rfl
    | none =>
      unfold isKnownSkill
      rw [hn]
      rfl
  · rw [if_neg hp, if_neg hp]

/-- Re-validation gives equal results on part lists with equal lowered
images. -/
theorem revalidateParts_ci (tax : SkillTaxonomy) {P Q : List String}
    (h : P.map lowStr = Q.map lowStr) :
    revalidateParts tax P = revalidateParts tax Q := by
  rw [revalidateParts_eq, revalidateParts_eq]
  apply filterMap_ci _ _ _ _ h
  intro p q hpq
  have hne : (p ≠ "") ↔ (q ≠ "") :=
    not_congr (by rw [← lowStr_eq_empty p, ← lowStr_eq_empty q, hpq])
  have hlen : p.data.length = q.data.length := by
    have h1 := lowStr_length p
    have h2 := lowStr_length q
    rw [hpq] at h1
    omega
  by_cases hc : q ≠ "" ∧ q.data.length ≥ 2
  · rw [if_pos ⟨hne.mpr hc.1, hlen ▸ hc.2⟩, if_pos hc]
    exact normalizeSkill_ci tax hpq
  · rw [if_neg (fun hh => hc ⟨hne.mp hh.1, hlen ▸ hh.2⟩), if_neg hc]

/-- Lowered equality transfers along `String.data . map lowChar`. -/
theorem low_data_eq {s t : String} (h : lowStr s = lowStr t) :
    s.data.map lowChar = t.data.map lowChar := congrArg String.data h

/-- The expansion of one raw skill has a lowered image depending only on the
lowered input. -/
theorem expandOne_low (tax : SkillTaxonomy) {s t : String}
    (h : lowStr s = lowStr t) :
    (expandOne tax s).map lowStr = (expandOne tax t).map lowStr := by
  have hpatcs : ∀ d ∈ (", " : String).data, ∀ c : Char, lowChar c = d ↔ c = d := by
    intro d hd c
    have : d = ',' ∨ d = ' ' := by
      simpa using hd
    rcases this with rfl | rfl
    · exact lowChar_eq_lit c ',' (by decide) (by decide)
    · exact lowChar_eq_lit c ' ' (by decide) (by decide)
  have hcomma : strContains ", " s = strContains ", " t := by
    unfold strContains
    calc containsSub ", ".data s.data
        = containsSub ", ".data (s.data.map lowChar) :=
          (containsSub_map_low _ hpatcs s.data).symm
      _ = containsSub ", ".data (t.data.map lowChar) := by rw [low_data_eq h]
      _ = containsSub ", ".data t.data := containsSub_map_low _ hpatcs t.data
  have hslash : s.data.contains '/' = t.data.contains '/' := by
    have hd : ∀ c : Char, lowChar c = '/' ↔ c = '/' :=
      fun c => lowChar_eq_lit c '/' (by decide) (by decide)
    calc s.data.contains '/'
        = (s.data.map lowChar).contains '/' := (contains_lit_map_low '/' hd s.data).symm
      _ = (t.data.map lowChar).contains '/' := by rw [low_data_eq h]
      _ = t.data.contains '/' := contains_lit_map_low '/' hd t.data
  have hknown : isKnownSkill tax s = isKnownSkill tax t := isKnownSkill_ci tax h
  have hsplitlow : ∀ (p : Char → Bool), (∀ c, p (lowChar c) = p c) →
      ((splitStrP p s).map trimStr).map lowStr =
        ((splitStrP p t).map trimStr).map lowStr := by
    intro p hp
    rw [mapTrim_low, mapTrim_low]
    congr 1
    rw [← splitStrP_low p hp s, ← splitStrP_low p hp t, h]
  unfold expandOne
  by_cases h1 : strContains ", " s = true
  · have ht1 : strContains ", " t = true := hcomma ▸ h1
    rw [if_pos h1, if_pos ht1]
    congr 1
    apply revalidateParts_ci
    exact hsplitlow _ (fun c => decide_eq_decide.mpr (lowChar_eq_lit c ',' (by decide) (by decide)))
  · have ht1 : ¬(strContains ", " t = true) := by
      rw [← hcomma]
      exact h1
    rw [if_neg h1, if_neg ht1]
    by_cases h2 : (s.data.contains '/' && !(isKnownSkill tax s)) = true
    · have ht2 : (t.data.contains '/' && !(isKnownSkill tax t)) = true := by
        rw [← hslash, ← hknown]
        exact h2
      rw [if_pos h2, if_pos ht2]
      congr 1
      apply revalidateParts_ci
      exact hsplitlow _ (fun c => decide_eq_decide.mpr (lowChar_eq_lit c '/' (by decide) (by decide)))
    · have ht2 : ¬((t.data.contains '/' && !(isKnownSkill tax t)) = true) := by
        rw [← hslash, ← hknown]
        exact h2
      rw [if_neg h2, if_neg ht2]
      simp only [List.map_cons, List.map_nil]
      rw [h]

/-- Elements of the case-insensitive dedup come from the input. -/
theorem dedupCIAux_sub (seen : List String) (l : List String) :
    ∀ x ∈ dedupCIAux seen l, x ∈ l := by
  induction l generalizing seen with
  | nil => intro x hx; exact absurd hx (by simp [dedupCIAux])
  | cons a rest ih =>
    intro x hx
    unfold dedupCIAux at hx
    by_cases hc : seen.contains (lowStr a) = true
    · rw [if_pos hc] at hx
      exact List.mem_cons_of_mem a (ih seen x hx)
    · rw [if_neg hc] at hx
      rcases List.mem_cons.mp hx with rfl | hx'
      · exact List.mem_cons_self x rest
      · exact List.mem_cons_of_mem a (ih _ x hx')

/-- Lowered membership after the case-insensitive dedup: present iff present
in the input and not blocked by the seen set. -/
theorem dedupCIAux_low_mem (seen : List String) (l : List String) (z : String) :
    z ∈ (dedupCIAux seen l).map lowStr ↔ z ∈ l.map lowStr ∧ z ∉ seen := by
  induction l generalizing seen with
  | nil => simp [dedupCIAux]
  | cons a rest ih =>
    unfold dedupCIAux
    by_cases hc : seen.contains (lowStr a) = true
    · rw [if_pos hc]
      rw [ih seen]
      have hmem : lowStr a ∈ seen := List.elem_iff.mp hc
      simp only [List.map_cons, List.mem_cons]
      constructor
      · rintro ⟨hz, hns⟩
        exact ⟨Or.inr hz, hns⟩
      · rintro ⟨hz | hz, hns⟩
        · exact absurd (hz ▸ hmem) hns
        · exact ⟨hz, hns⟩
    · rw [if_neg hc]
      simp only [List.map_cons, List.mem_cons]
      rw [ih (lowStr a :: seen)]
      constructor
      · rintro (rfl | ⟨hz, hns⟩)
        · exact ⟨Or.inl rfl, fun hs => hc (List.elem_iff.mpr hs)⟩
        · refine ⟨Or.inr hz, fun hs => hns (List.mem_cons_of_mem _ hs)⟩
      · rintro ⟨hz | hz, hns⟩
        · exact Or.inl hz
        · by_cases hza : z = lowStr a
          · exact Or.inl hza
          · exact Or.inr ⟨hz, fun hs => (List.mem_cons.mp hs).elim hza hns⟩

/-- The lowered forms of the case-insensitive dedup are duplicate-free. -/
theorem dedupCIAux_low_nodup (seen : List String) (l : List String) :
    ((dedupCIAux seen l).map lowStr).Nodup := by
  induction l generalizing seen with
  | nil => simp [dedupCIAux]
  | cons a rest ih =>
    unfold dedupCIAux
    by_cases hc : seen.contains (lowStr a) = true
    · rw [if_pos hc]
      exact ih seen
    · rw [if_neg hc]
      simp only [List.map_cons, List.nodup_cons]
      refine ⟨?_, ih (lowStr a :: seen)⟩
      intro hmem
      have := (dedupCIAux_low_mem (lowStr a :: seen) rest (lowStr a)).mp hmem
      exact this.2 (List.mem_cons_self _ _)

/-- Lowered membership is preserved by `dedupCI`. -/
theorem dedupCI_low_mem (l : List String) (z : String) :
    z ∈ (dedupCI l).map lowStr ↔ z ∈ l.map lowStr := by
  unfold dedupCI
  rw [dedupCIAux_low_mem]
  simp

/-- The trigger condition of an abstraction rule, in propositional form. -/
theorem suppress_cond_iff (lows : List String) (rule : String × List String) :
    ((lows.contains rule.1 && rule.2.any (fun sp => lows.contains sp)) = true) ↔
      (rule.1 ∈ lows ∧ ∃ sp ∈ rule.2, sp ∈ lows) := by
  rw [Bool.and_eq_true, List.any_eq_true]
  constructor
  · rintro ⟨h1, sp, hsp, h2⟩
    exact ⟨List.elem_iff.mp h1, sp, hsp, List.elem_iff.mp h2⟩
  · rintro ⟨h1, sp, hsp, h2⟩
    exact ⟨List.elem_iff.mpr h1, sp, hsp, List.elem_iff.mpr h2⟩

/-- Lowered membership after abstraction suppression, for a list with
duplicate-free lowered forms: a lowered form survives iff it was present and
no abstraction rule names it as a generic with a present specific. -/
theorem suppress_low_mem (L : List String) (hnd : (L.map lowStr).Nodup)
    (z : String) :
    z ∈ (suppressAbstractions L).map lowStr ↔
      z ∈ L.map lowStr ∧
        ¬ ∃ rule ∈ ABSTRACTION_RULES, rule.1 = z ∧
            ∃ sp ∈ rule.2, sp ∈ L.map lowStr := by
  unfold suppressAbstractions
  constructor
  · intro hz
    rw [List.mem_map] at hz
    obtain ⟨s, hsf, rfl⟩ := hz
    rw [List.mem_filter] at hsf
    obtain ⟨hsL, hkeep⟩ := hsf
    refine ⟨List.mem_map_of_mem lowStr hsL, ?_⟩
    rintro ⟨rule, hrule, hr1, sp, hsp, hspL⟩
    have hcond : ((L.map lowStr).contains rule.1 &&
        rule.2.any (fun x => (L.map lowStr).contains x)) = true := by
      rw [suppress_cond_iff]
      exact ⟨hr1 ▸ List.mem_map_of_mem lowStr hsL, sp, hsp, hspL⟩
    have hfind : ∃ y, L.find? (fun s' => lowStr s' = rule.1) = some y := by
      have : (L.find? (fun s' => lowStr s' = rule.1)).isSome = true := by
        rw [List.find?_isSome]
        exact ⟨s, hsL, by simp [hr1]⟩
      cases hy : L.find? (fun s' => lowStr s' = rule.1) with
      | some y => exact ⟨y, rfl⟩
      | none => rw [hy] at this; exact absurd this (by simp)
    obtain ⟨y, hy⟩ := hfind
    have hyL : y ∈ L := List.mem_of_find?_eq_some hy
    have hylow : lowStr y = rule.1 := by
      have := List.find?_some hy
      simpa using this
    have hys : y = s :=
      List.inj_on_of_nodup_map hnd hyL hsL (by rw [hylow, hr1])
    have hsrem : s ∈ ABSTRACTION_RULES.filterMap (fun rule =>
        if ((L.map lowStr).contains rule.1 &&
            rule.2.any (fun sp => (L.map lowStr).contains sp)) = true then
          L.find? (fun s' => lowStr s' = rule.1)
        else none) := by
      rw [List.mem_filterMap]
      exact ⟨rule, hrule, by rw [if_pos hcond, hy, hys]⟩
    rw [Bool.not_eq_true'] at hkeep
    have hct2 : (ABSTRACTION_RULES.filterMap (fun rule =>
        if ((L.map lowStr).contains rule.1 &&
            rule.2.any (fun sp => (L.map lowStr).contains sp)) = true then
          L.find? (fun s' => lowStr s' = rule.1)
        else none)).contains s = true := List.elem_iff.mpr hsrem
    rw [hkeep] at hct2
    exact absurd hct2 (by simp)
  · rintro ⟨hz, hnr⟩
    rw [List.mem_map] at hz
    obtain ⟨s, hsL, rfl⟩ := hz
    rw [List.mem_map]
    refine ⟨s, ?_, rfl⟩
    rw [List.mem_filter]
    refine ⟨hsL, ?_⟩
    rw [Bool.not_eq_true']
    by_contra hcon
    rw [Bool.not_eq_false] at hcon
    have hsrem := List.elem_iff.mp hcon
    rw [List.mem_filterMap] at hsrem
    obtain ⟨rule, hrule, hif⟩ := hsrem
    by_cases hcond : ((L.map lowStr).contains rule.1 &&
        rule.2.any (fun sp => (L.map lowStr).contains sp)) = true
    · rw [if_pos hcond] at hif
      have hslow : lowStr s = rule.1 := by
        have := List.find?_some hif
        simpa using this
      obtain ⟨-, sp, hsp, hspL⟩ := (suppress_cond_iff _ _).mp hcond
      exact hnr ⟨rule, hrule, hslow.symm, sp, hsp, hspL⟩
    · rw [if_neg hcond] at hif
      exact absurd hif (by simp)

/-- Lowered membership in an expansion, elementwise. -/
theorem flatMap_low_mem (f : String → List String) (l : List String) (z : String) :
    z ∈ (l.flatMap f).map lowStr ↔ ∃ w ∈ l, z ∈ (f w).map lowStr := by
  rw [List.map_flatMap, List.mem_flatMap]

/-- Membership in the fully post-processed canonical collection, reduced to
lowered-form membership data about the input list only. -/
theorem postProcess_mem (tax : SkillTaxonomy) (l : List String) (x : String) :
    (x ∈ (suppressAbstractions (dedupCI (l.flatMap (expandOne tax)))).flatMap
        (canonicalsOf tax)) ↔
      ∃ z, (∃ w ∈ l, z ∈ (expandOne tax w).map lowStr) ∧
        ¬(∃ rule ∈ ABSTRACTION_RULES, rule.1 = z ∧
            ∃ sp ∈ rule.2, ∃ w ∈ l, sp ∈ (expandOne tax w).map lowStr) ∧
        x ∈ canonicalsOf tax z := by
  have hnd : ((dedupCI (l.flatMap (expandOne tax))).map lowStr).Nodup :=
    dedupCIAux_low_nodup [] (l.flatMap (expandOne tax))
  rw [List.mem_flatMap]
  constructor
  · rintro ⟨y, hy, hx⟩
    have h1 : lowStr y ∈ (suppressAbstractions (dedupCI (l.flatMap (expandOne tax)))).map lowStr :=
      List.mem_map_of_mem lowStr hy
    rw [suppress_low_mem _ hnd] at h1
    obtain ⟨h2, h3⟩ := h1
    rw [dedupCI_low_mem, flatMap_low_mem] at h2
    refine ⟨lowStr y, h2, ?_, ?_⟩
    · intro hcon
      apply h3
      obtain ⟨rule, hrule, hr1, sp, hsp, hspE⟩ := hcon
      refine ⟨rule, hrule, hr1, sp, hsp, ?_⟩
      rw [dedupCI_low_mem, flatMap_low_mem]
      exact hspE
    · rw [canonicalsOf_ci tax (lowStr_idem y)]
      exact hx
  · rintro ⟨z, hzE, hnr, hx⟩
    have h1 : z ∈ (suppressAbstractions (dedupCI (l.flatMap (expandOne tax)))).map lowStr := by
      rw [suppress_low_mem _ hnd]
      constructor
      · rw [dedupCI_low_mem, flatMap_low_mem]
        exact hzE
      · intro hcon
        apply hnr
        obtain ⟨rule, hrule, hr1, sp, hsp, hspD⟩ := hcon
        rw [dedupCI_low_mem, flatMap_low_mem] at hspD
        exact ⟨rule, hrule, hr1, sp, hsp, hspD⟩
    rw [List.mem_map] at h1
    obtain ⟨y, hy, hylow⟩ := h1
    refine ⟨y, hy, ?_⟩
    have hzlow : lowStr z = z := by
      obtain ⟨w, _, hzw⟩ := hzE
      rw [List.mem_map] at hzw
      obtain ⟨u, _, hu⟩ := hzw
      rw [← hu, lowStr_idem]
    rw [canonicalsOf_ci tax (show lowStr y = lowStr z by rw [hylow, hzlow])]
    exact hx

/-- `sorted(list(set))` depends only on membership: two collections with the
same members sort-deduplicate identically. -/
theorem sortStrings_dedup_eq {A B : List String}
    (h : ∀ x, x ∈ A ↔ x ∈ B) :
    sortStrings A.dedup = sortStrings B.dedup := by
  have hAB : A.dedup.Perm B.dedup := by
    apply List.perm_of_nodup_nodup_toFinset_eq (List.nodup_dedup A) (List.nodup_dedup B)
    apply Finset.ext
    intro x
    rw [List.mem_toFinset, List.mem_toFinset, List.mem_dedup, List.mem_dedup]
    exact h x
  have h1 := List.perm_insertionSort (fun a b : String => a.data ≤ b.data) A.dedup
  have h2 := List.perm_insertionSort (fun a b : String => a.data ≤ b.data) B.dedup
  exact List.eq_of_perm_of_sorted (h1.trans (hAB.trans h2.symm))
    (List.sorted_insertionSort _ _) (List.sorted_insertionSort _ _)

/-- C9: the extractor's output is always lexicographically sorted with no
duplicates, and the post-processing stage is invariant under reordering of
the raw accepted-skill set — so the result does not depend on Python's set
iteration order (determinism of `extractSkills` as a function of text and
taxonomy is definitional in this model). -/
theorem C9_determinism_sorted (tok : String → List Token) (tax : SkillTaxonomy) :
    (∀ text : String,
      (extractSkills tok tax text).Sorted (fun a b : String => a.data ≤ b.data) ∧
      (extractSkills tok tax text).Nodup) ∧
    (∀ l l' : List String, l.Perm l' → postProcess tax l = postProcess tax l') := by
  have hsorted : ∀ L : List String,
      (sortStrings L.dedup).Sorted (fun a b : String => a.data ≤ b.data) ∧
      (sortStrings L.dedup).Nodup := by
    intro L
    refine ⟨List.sorted_insertionSort _ _, ?_⟩
    exact (List.perm_insertionSort
      (fun a b : String => a.data ≤ b.data) L.dedup).symm.nodup (List.nodup_dedup L)
  constructor
  · intro text
    unfold extractSkills
    by_cases he : text = "" ∨ trimStr text = ""
    · rw [if_pos he]
      exact ⟨List.sorted_nil, List.nodup_nil⟩
    · rw [if_neg he]
      exact hsorted _
  · intro l l' hperm
    unfold postProcess normalizeAndDedup
    apply sortStrings_dedup_eq
    intro x
    rw [postProcess_mem, postProcess_mem]
    constructor
    · rintro ⟨z, ⟨w, hw, hzw⟩, hnr, hx⟩
      refine ⟨z, ⟨w, hperm.mem_iff.mp hw, hzw⟩, ?_, hx⟩
      rintro ⟨rule, hrule, hr1, sp, hsp, w', hw', hspw⟩
      exact hnr ⟨rule, hrule, hr1, sp, hsp, w', hperm.mem_iff.mpr hw', hspw⟩
    · rintro ⟨z, ⟨w, hw, hzw⟩, hnr, hx⟩
      refine ⟨z, ⟨w, hperm.mem_iff.mpr hw, hzw⟩, ?_, hx⟩
      rintro ⟨rule, hrule, hr1, sp, hsp, w', hw', hspw⟩
      exact hnr ⟨rule, hrule, hr1, sp, hsp, w', hperm.mem_iff.mp hw', hspw⟩

/-- C9 (witness): post-processing the two orderings of a two-element raw set
gives the same sorted duplicate-free output. -/
theorem C9_determinism_sorted_witness :
    postProcess (loadSkills none) ["Python", "Java"] =
      postProcess (loadSkills none) ["Java", "Python"] ∧
    (extractSkills simpleTok (loadSkills none) "Skills:\nPYTHON").Nodup := by
  constructor
  · exact (C9_determinism_sorted simpleTok (loadSkills none)).2
      ["Python", "Java"] ["Java", "Python"] (by decide)
  · exact ((C9_determinism_sorted simpleTok (loadSkills none)).1
      "Skills:\nPYTHON").2

/-- A candidate whose lowercase form avoids the denylist and hits the static
canonical table is matched EXACT with the table's canonical, for every
taxonomy. -/
theorem matchCandidate_exact_of_table (tax : SkillTaxonomy) (s c : String)
    (hden : DENYLIST.contains (lowStr s) = false)
    (hcan : alistFind CANONICAL_SKILLS (lowStr s) = some c) :
    matchCandidate tax s = some (MatchType.EXACT, c) := by
  unfold matchCandidate
  rw [if_neg (by rw [hden]; exact fun h => Bool.noConfusion h), hcan]

/-- C8: a missing taxonomy source file leaves the taxonomy empty without
raising, and the matcher degrades to the static canonical-alias table: every
candidate resolves to an EXACT hit of that table or to no match at all (the
fuzzy step over the empty corpus never fires). -/
theorem C8_degraded_mode :
    loadSkills none = ⟨[], []⟩ ∧
    ∀ cand : String, matchCandidate (loadSkills none) cand =
      (alistFind CANONICAL_SKILLS (lowStr cand)).map (fun c => (MatchType.EXACT, c)) := by
  refine ⟨rfl, ?_⟩
  intro cand
  unfold matchCandidate
  by_cases hden : DENYLIST.contains (lowStr cand) = true
  · rw [if_pos hden]
    have hdisj : ∀ k ∈ DENYLIST, alistFind CANONICAL_SKILLS k = none := by decide
    rw [hdisj _ (List.elem_iff.mp hden)]
    rfl
  · rw [if_neg hden]
    cases hcan : alistFind CANONICAL_SKILLS (lowStr cand) with
    | some c => rfl
    | none =>
      have hnorm : normalizeSkill (loadSkills none) cand = none := by
        unfold normalizeSkill
        by_cases he : cand = ""
        · rw [if_pos he]
        · rw [if_neg he]
          rfl
      rw [hnorm]
      by_cases hlen : cand.data.length < 4
      · rw [if_pos hlen]
        rfl
      · rw [if_neg hlen]
        rfl

set_option maxRecDepth 40000 in
/-- C6 (counterexample): the claim states `extractSkills "PYTHON"` yields
`["Python"]`; with the shipped empty-file degraded taxonomy (and in fact any
taxonomy, see the amended theorem) the single Unknown-section occurrence
scores `1.0 × 0.5 = 0.5`, below both acceptance rules, so the output is
empty. -/
theorem C6_counterexample :
    extractSkills simpleTok (loadSkills none) "PYTHON" = [] ∧
    ([] : List String) ≠ ["Python"] := by
  constructor
  · decide
  · decide

/-- C6 (amended): for every taxonomy, `extractSkills "PYTHON"` and
`extractSkills "python"` return identical output — the empty list, because
the one bare occurrence lands in the Unknown section and scores
`0.5 + 0.2 < 1.6` with count 1.  Case invariance of the output holds; the
claimed `["Python"]` does not. -/
theorem C6_case_invariance (tax : SkillTaxonomy) :
    extractSkills simpleTok tax "PYTHON" = [] ∧
    extractSkills simpleTok tax "python" = [] ∧
    extractSkills simpleTok tax "PYTHON" = extractSkills simpleTok tax "python" := by
  have hgen : ∀ w : String, DENYLIST.contains (lowStr w) = false →
      alistFind CANONICAL_SKILLS (lowStr w) = some "Python" →
      segmentText w = [(SectionType.PRIMARY, []), (SectionType.SECONDARY, []),
        (SectionType.TERTIARY, []), (SectionType.UNKNOWN, [w])] →
      simpleTok (preprocess w) = [⟨w, lowStr w, false, false⟩] →
      generateCandidates [⟨w, lowStr w, false, false⟩] = [(w, 0, 1)] →
      (w = "" ∨ trimStr w = "" → False) →
      extractSkills simpleTok tax w = [] := by
    intro w hden hcan hseg htok hcands hne
    unfold extractSkills
    rw [if_neg hne]
    show postProcess tax (rawSkills (extractOccsFromBlocks simpleTok tax
      ((segmentText w).flatMap fun sec => sec.2.map fun b => (sec.1, b)))) = []
    rw [hseg]
    have hblocks : ([(SectionType.PRIMARY, ([] : List String)),
        (SectionType.SECONDARY, []), (SectionType.TERTIARY, []),
        (SectionType.UNKNOWN, [w])].flatMap fun sec => sec.2.map fun b => (sec.1, b)) =
        [(SectionType.UNKNOWN, w)] := by
      simp [List.flatMap_cons]
    rw [hblocks]
    have hocc : extractOccsFromBlocks simpleTok tax [(SectionType.UNKNOWN, w)] =
        [("Python", (1 : ℚ) * sectionMultiplier SectionType.UNKNOWN)] := by
      unfold extractOccsFromBlocks processTextBlock
      simp only [List.flatMap_cons, List.flatMap_nil, List.append_nil]
      rw [htok, hcands]
      simp only [List.filterMap_cons, List.filterMap_nil]
      unfold scoreCandidate
      rw [matchCandidate_exact_of_table tax w "Python" hden hcan]
      dsimp only
      rw [if_neg (fun hc => SectionType.noConfusion hc.1)]
      rfl
    rw [hocc]
    have hraw : rawSkills [("Python", (1 : ℚ) * sectionMultiplier SectionType.UNKNOWN)] = [] := by
      decide
    rw [hraw]
    rfl
  refine ⟨?_, ?_, ?_⟩
  · exact hgen "PYTHON" (by decide) (by decide) (by decide) (by decide) (by decide)
      (by decide)
  · exact hgen "python" (by decide) (by decide) (by decide) (by decide) (by decide)
      (by decide)
  · rw [hgen "PYTHON" (by decide) (by decide) (by decide) (by decide) (by decide)
      (by decide),
      hgen "python" (by decide) (by decide) (by decide) (by decide) (by decide)
      (by decide)]

set_option maxRecDepth 40000 in
/-- C5 (counterexample): the claim states an isolated general term such as
`"Cloud"` (no specific counterpart present) is retained.  It is not: with a
taxonomy whose dataset contains the skill `"Cloud"`, extraction from a resume
whose Skills section consists of the single word `Cloud` returns the empty
list — the candidate's lowercase form `"cloud"` is in the matcher's denylist,
so it is dropped long before the suppression step. -/
theorem C5_counterexample :
    "Cloud" ∈ (loadSkills (some [["Cloud"]])).skills ∧
    extractSkills simpleTok (loadSkills (some [["Cloud"]])) "Skills:\nCloud" = [] := by
  constructor
  · decide
  · decide

/-- C5 (amended): the suppression half of the claim holds — whenever an
abstraction rule's generic term is present (lowercased) in the deduplicated
skill list together with at least one of its specific counterparts, the
generic term does not survive `suppressAbstractions`.  The retention half is
replaced by its negation: the bare word `"Cloud"` is never matched as a
skill under any taxonomy, because its lowercase form is denylisted. -/
theorem C5_abstraction_suppression (L : List String) (g sp : String)
    (specs : List String) (hrule : (g, specs) ∈ ABSTRACTION_RULES)
    (hnd : (L.map lowStr).Nodup) (hg : g ∈ L.map lowStr)
    (hsp : sp ∈ specs) (hspL : sp ∈ L.map lowStr) :
    g ∉ (suppressAbstractions L).map lowStr ∧
    ∀ tax : SkillTaxonomy, matchCandidate tax "Cloud" = none := by
  constructor
  · intro hmem
    rw [suppress_low_mem L hnd g] at hmem
    exact hmem.2 ⟨(g, specs), hrule, rfl, sp, hsp, hspL⟩
  · intro tax
    unfold matchCandidate
    rw [if_pos (by decide)]

/-- C5 witness: a concrete instance of the suppression theorem, with the
rule `("cloud", ["aws", ...])`, list `["Cloud", "AWS"]` and the default
degraded taxonomy. -/
theorem C5_abstraction_suppression_witness :
    "cloud" ∉ (suppressAbstractions ["Cloud", "AWS"]).map lowStr ∧
    matchCandidate (loadSkills none) "Cloud" = none := by
  have h := C5_abstraction_suppression ["Cloud", "AWS"] "cloud" "aws"
    ["aws", "azure", "gcp", "google cloud"] (by decide) (by decide) (by decide)
    (by decide) (by decide)
  exact ⟨h.1, h.2 (loadSkills none)⟩

/-- Association-list lookup on a cons cell. -/
theorem alistFind_cons (k v : String) (M : List (String × String)) (k' : String) :
    alistFind ((k, v) :: M) k' = if k' = k then some v else alistFind M k' := by
  unfold alistFind
  by_cases h : k = k'
  · subst h
    rw [if_pos rfl, List.find?_cons_of_pos _ (by simp)]
  · rw [if_neg (fun hh => h hh.symm), List.find?_cons_of_neg _ (by simp [h])]

/-- Membership in the modelled Python set after an insertion. -/
theorem mem_setAdd (l : List String) (x y : String) :
    y ∈ setAdd l x ↔ y ∈ l ∨ y = x := by
  unfold setAdd
  by_cases h : l.contains x
  · rw [if_pos h]
    constructor
    · exact Or.inl
    · rintro (hy | rfl)
      · exact hy
      · exact List.elem_iff.mp h
  · rw [if_neg h]
    simp

/-- The head of `dropWhile p` does not satisfy `p`. -/
theorem head_dropWhile_false (p : Char → Bool) (l : List Char) :
    ∀ x ∈ (l.dropWhile p).head?, p x = false := by
  induction l with
  | nil => intro x hx; cases hx
  | cons c rest ih =>
    intro x hx
    rw [List.dropWhile_cons] at hx
    by_cases h : p c
    · rw [if_pos h] at hx
      exact ih x hx
    · rw [if_neg h] at hx
      have : x = c := by
        have : (c :: rest).head? = some x := hx
        injection this with h2
        exact h2.symm
      subst this
      exact Bool.of_not_eq_true h

/-- `dropWhile` is the identity on a list whose head fails the predicate. -/
theorem dropWhile_eq_self_of_head (p : Char → Bool) (l : List Char)
    (h : ∀ x ∈ l.head?, p x = false) : l.dropWhile p = l := by
  cases l with
  | nil => rfl
  | cons c rest =>
    rw [List.dropWhile_cons, if_neg]
    rw [h c rfl]
    simp

/-- `dropWhile` is idempotent. -/
theorem dropWhile_idem_char (p : Char → Bool) (l : List Char) :
    (l.dropWhile p).dropWhile p = l.dropWhile p :=
  dropWhile_eq_self_of_head p _ (head_dropWhile_false p l)

/-- Two-sided stripping is idempotent. -/
theorem stripList_idem (p : Char → Bool) (l : List Char) :
    stripList p (stripList p l) = stripList p l := by
  have hpre : stripList p l <+: l.dropWhile p := by
    have h1 : ((l.dropWhile p).reverse.dropWhile p) <:+ (l.dropWhile p).reverse :=
      List.dropWhile_suffix p
    have h2 := List.reverse_prefix.mpr h1
    rw [List.reverse_reverse] at h2
    exact h2
  have hOK : ∀ x ∈ (stripList p l).head?, p x = false := by
    intro x hx
    obtain ⟨t, ht⟩ := hpre
    apply head_dropWhile_false p l x
    cases hs : stripList p l with
    | nil => rw [hs] at hx; cases hx
    | cons y ys =>
      rw [hs] at hx ht
      have hxy : x = y := by
        have : (y :: ys).head? = some x := hx
        injection this with h2
        exact h2.symm
      subst hxy
      rw [← ht]
      rfl
  show (((stripList p l).dropWhile p).reverse.dropWhile p).reverse = stripList p l
  rw [dropWhile_eq_self_of_head p _ hOK]
  have hrev : (stripList p l).reverse = (l.dropWhile p).reverse.dropWhile p := by
    show (((l.dropWhile p).reverse.dropWhile p).reverse).reverse = _
    rw [List.reverse_reverse]
  rw [hrev, dropWhile_idem_char]
  rfl

/-- `str.strip()` is idempotent. -/
theorem trimStr_idem (s : String) : trimStr (trimStr s) = trimStr s :=
  congrArg String.mk (stripList_idem pySpace s.data)

set_option maxRecDepth 100000 in
/-- Static chain condition of the alias table: whenever some alias key
lowers to the lowercase of some alias value, its canonical is that value. -/
theorem alias_chain : ∀ p ∈ SKILL_ALIASES, ∀ q ∈ SKILL_ALIASES,
    lowStr q.1 = lowStr p.2 → q.2 = p.2 := by decide

set_option maxRecDepth 100000 in
/-- Alias canonicals are case-insensitively unique. -/
theorem alias_value_ci_unique : ∀ p ∈ SKILL_ALIASES, ∀ q ∈ SKILL_ALIASES,
    lowStr p.2 = lowStr q.2 → p.2 = q.2 := by decide

set_option maxRecDepth 100000 in
/-- Alias canonicals are nonempty, stripped and internally
whitespace-normal. -/
theorem alias_value_sane : ∀ p ∈ SKILL_ALIASES,
    p.2 ≠ "" ∧ trimStr p.2 = p.2 ∧ collapseWS (lowStr p.2) = lowStr p.2 := by
  decide

/-- The empty taxonomy satisfies the dataset-phase invariant. -/
theorem dsInv_empty (jobs : List (List String)) : dsInv jobs ⟨[], []⟩ := by
  unfold dsInv
  refine ⟨?_, ?_, ?_⟩
  · intro k v hf
    simp [alistFind] at hf
  · intro s hs
    cases hs
  · intro s hs
    cases hs

/-- One dataset entry preserves the dataset-phase invariant. -/
theorem ds_step (jobs : List (List String)) (acc : SkillTaxonomy) (sk : String)
    (hin : ∃ job ∈ jobs, sk ∈ job) (h : dsInv jobs acc) :
    dsInv jobs (loadDatasetStep acc sk) := by
  obtain ⟨ha, hb, hc⟩ := h
  have hstep : loadDatasetStep acc sk =
      if trimStr sk ≠ "" then
        ⟨setAdd acc.skills (trimStr sk),
          (lowStr (trimStr sk), trimStr sk) :: acc.lowerMap⟩
      else acc := rfl
  rw [hstep]
  by_cases hne : trimStr sk ≠ ""
  · rw [if_pos hne]
    obtain ⟨job, hjob, hsk⟩ := hin
    have horig : dsOrigin jobs (trimStr sk) := ⟨job, hjob, sk, hsk, rfl, hne⟩
    unfold dsInv
    refine ⟨?_, ?_, ?_⟩
    · intro k v hf
      rw [show (⟨setAdd acc.skills (trimStr sk),
          (lowStr (trimStr sk), trimStr sk) :: acc.lowerMap⟩ :
          SkillTaxonomy).lowerMap =
          (lowStr (trimStr sk), trimStr sk) :: acc.lowerMap from rfl,
        alistFind_cons] at hf
      by_cases hk : k = lowStr (trimStr sk)
      · rw [if_pos hk] at hf
        injection hf with hv
        subst hv
        exact ⟨hk, horig⟩
      · rw [if_neg hk] at hf
        exact ha k v hf
    · intro s hs
      rw [show (⟨setAdd acc.skills (trimStr sk),
          (lowStr (trimStr sk), trimStr sk) :: acc.lowerMap⟩ :
          SkillTaxonomy).skills = setAdd acc.skills (trimStr sk) from rfl,
        mem_setAdd] at hs
      rw [show (⟨setAdd acc.skills (trimStr sk),
          (lowStr (trimStr sk), trimStr sk) :: acc.lowerMap⟩ :
          SkillTaxonomy).lowerMap =
          (lowStr (trimStr sk), trimStr sk) :: acc.lowerMap from rfl,
        alistFind_cons]
      rcases hs with hs | rfl
      · by_cases hk : lowStr s = lowStr (trimStr sk)
        · rw [if_pos hk]
          rfl
        · rw [if_neg hk]
          exact hb s hs
      · rw [if_pos rfl]
        rfl
    · intro s hs
      rw [show (⟨setAdd acc.skills (trimStr sk),
          (lowStr (trimStr sk), trimStr sk) :: acc.lowerMap⟩ :
          SkillTaxonomy).skills = setAdd acc.skills (trimStr sk) from rfl,
        mem_setAdd] at hs
      rcases hs with hs | rfl
      · exact hc s hs
      · exact horig
  · rw [if_neg hne]
    exact ⟨ha, hb, hc⟩

/-- A job's inner fold preserves the dataset-phase invariant. -/
theorem ds_fold_inner (jobs : List (List String)) (job : List String)
    (hjob : ∀ sk ∈ job, ∃ j ∈ jobs, sk ∈ j) :
    ∀ acc, dsInv jobs acc → dsInv jobs (job.foldl loadDatasetStep acc) := by
  induction job with
  | nil => exact fun acc h => h
  | cons sk rest ih =>
    intro acc h
    exact ih (fun x hx => hjob x (by simp [hx])) (loadDatasetStep acc sk)
      (ds_step jobs acc sk (hjob sk (by simp)) h)

/-- The outer dataset fold preserves the dataset-phase invariant. -/
theorem ds_fold_outer (jobs : List (List String)) (l : List (List String))
    (hl : ∀ j ∈ l, j ∈ jobs) :
    ∀ acc, dsInv jobs acc →
      dsInv jobs (l.foldl (fun acc job => job.foldl loadDatasetStep acc) acc) := by
  induction l with
  | nil => exact fun acc h => h
  | cons job rest ih =>
    intro acc h
    exact ih (fun x hx => hl x (by simp [hx])) _
      (ds_fold_inner jobs job (fun sk hsk => ⟨job, hl job (by simp), hsk⟩) acc h)

/-- With case-insensitively unique dataset skill names, the dataset-phase
invariant upgrades to the alias-phase invariant. -/
theorem aliasInv_of_dsInv (jobs : List (List String)) (acc : SkillTaxonomy)
    (huniq : ∀ job ∈ jobs, ∀ sk ∈ job, ∀ job' ∈ jobs, ∀ sk' ∈ job',
      lowStr (trimStr sk) = lowStr (trimStr sk') → trimStr sk = trimStr sk')
    (h : dsInv jobs acc) : aliasInv jobs acc := by
  obtain ⟨ha, hb, hc⟩ := h
  unfold aliasInv
  refine ⟨?_, ?_, ?_, ?_, ?_⟩
  · intro k v hf
    obtain ⟨hk, ho⟩ := ha k v hf
    exact ⟨Or.inl hk, Or.inl ho⟩
  · intro k v hf
    obtain ⟨hk, _⟩ := ha k v hf
    rw [← hk]
    exact hf
  · exact hb
  · intro s hs
    exact Or.inl (hc s hs)
  · intro s hs _
    have h1 := hb s hs
    cases hf : alistFind acc.lowerMap (lowStr s) with
    | none =>
      rw [hf] at h1
      cases h1
    | some w =>
      obtain ⟨hk, how⟩ := ha _ w hf
      obtain ⟨j1, hj1, sk1, hsk1, hw, hwne⟩ := how
      obtain ⟨j2, hj2, sk2, hsk2, hsx, hsne⟩ := hc s hs
      have hws : w = s := by
        have hls : lowStr (trimStr sk1) = lowStr (trimStr sk2) := by
          rw [← hw, ← hsx, ← hk]
        have := huniq j1 hj1 sk1 hsk1 j2 hj2 sk2 hsk2 hls
        rw [hw, hsx, this]
      rw [hws]

/-- One alias entry preserves the alias-phase invariant, by the static
chain and uniqueness conditions on the alias table. -/
theorem alias_step (jobs : List (List String)) (acc : SkillTaxonomy)
    (p : String × String) (hp : p ∈ SKILL_ALIASES) (h : aliasInv jobs acc) :
    aliasInv jobs (loadAliasStep acc p) := by
  obtain ⟨ha, hb, hcx, hd, he⟩ := h
  have hcval : p.2 ∈ SKILL_ALIASES.map Prod.snd := List.mem_map_of_mem Prod.snd hp
  have hstep : loadAliasStep acc p =
      if acc.skills.contains p.2 then
        ⟨acc.skills, (lowStr p.1, p.2) :: acc.lowerMap⟩
      else
        ⟨setAdd acc.skills p.2,
          (lowStr p.2, p.2) :: (lowStr p.1, p.2) :: acc.lowerMap⟩ := rfl
  rw [hstep]
  by_cases hsk : acc.skills.contains p.2
  · rw [if_pos hsk]
    have hcmem : p.2 ∈ acc.skills := List.elem_iff.mp hsk
    have hm : (⟨acc.skills, (lowStr p.1, p.2) :: acc.lowerMap⟩ :
        SkillTaxonomy).lowerMap = (lowStr p.1, p.2) :: acc.lowerMap := rfl
    have hss : (⟨acc.skills, (lowStr p.1, p.2) :: acc.lowerMap⟩ :
        SkillTaxonomy).skills = acc.skills := rfl
    unfold aliasInv
    refine ⟨?_, ?_, ?_, ?_, ?_⟩
    · intro k v hf
      rw [hm, alistFind_cons] at hf
      by_cases hk : k = lowStr p.1
      · rw [if_pos hk] at hf
        injection hf with hv
        subst hv
        exact ⟨Or.inr ⟨p, hp, hk, rfl⟩, Or.inr hcval⟩
      · rw [if_neg hk] at hf
        exact ha k v hf
    · intro k v hf
      rw [hm, alistFind_cons] at hf
      rw [hm, alistFind_cons]
      by_cases hk : k = lowStr p.1
      · rw [if_pos hk] at hf
        injection hf with hv
        subst hv
        by_cases hv2 : lowStr p.2 = lowStr p.1
        · rw [if_pos hv2]
        · rw [if_neg hv2]
          exact he p.2 hcmem hcval
      · rw [if_neg hk] at hf
        by_cases hv2 : lowStr v = lowStr p.1
        · rw [if_pos hv2]
          obtain ⟨hshape, _⟩ := ha k v hf
          rcases hshape with hk2 | ⟨q, hq, hk2, hvq⟩
          · exact absurd (hk2.trans hv2) hk
          · have hchain := alias_chain q hq p hp (by rw [← hvq]; exact hv2.symm)
            rw [hchain, ← hvq]
        · rw [if_neg hv2]
          exact hb k v hf
    · intro s hs
      rw [hss] at hs
      rw [hm, alistFind_cons]
      by_cases hk : lowStr s = lowStr p.1
      · rw [if_pos hk]
        rfl
      · rw [if_neg hk]
        exact hcx s hs
    · intro s hs
      rw [hss] at hs
      exact hd s hs
    · intro s hs hval
      rw [hss] at hs
      rw [hm, alistFind_cons]
      by_cases hk : lowStr s = lowStr p.1
      · rw [if_pos hk]
        obtain ⟨q, hq, hqv⟩ := List.mem_map.mp hval
        have hchain := alias_chain q hq p hp (by rw [hqv]; exact hk.symm)
        rw [hchain, hqv]
      · rw [if_neg hk]
        exact he s hs hval
  · rw [if_neg hsk]
    have hm2 : (⟨setAdd acc.skills p.2,
        (lowStr p.2, p.2) :: (lowStr p.1, p.2) :: acc.lowerMap⟩ :
        SkillTaxonomy).lowerMap =
        (lowStr p.2, p.2) :: (lowStr p.1, p.2) :: acc.lowerMap := rfl
    have hss2 : (⟨setAdd acc.skills p.2,
        (lowStr p.2, p.2) :: (lowStr p.1, p.2) :: acc.lowerMap⟩ :
        SkillTaxonomy).skills = setAdd acc.skills p.2 := rfl
    unfold aliasInv
    refine ⟨?_, ?_, ?_, ?_, ?_⟩
    · intro k v hf
      rw [hm2, alistFind_cons] at hf
      by_cases hk2 : k = lowStr p.2
      · rw [if_pos hk2] at hf
        injection hf with hv
        subst hv
        exact ⟨Or.inl hk2, Or.inr hcval⟩
      · rw [if_neg hk2, alistFind_cons] at hf
        by_cases hk1 : k = lowStr p.1
        · rw [if_pos hk1] at hf
          injection hf with hv
          subst hv
          exact ⟨Or.inr ⟨p, hp, hk1, rfl⟩, Or.inr hcval⟩
        · rw [if_neg hk1] at hf
          exact ha k v hf
    · intro k v hf
      rw [hm2, alistFind_cons] at hf
      by_cases hk2 : k = lowStr p.2
      · rw [if_pos hk2] at hf
        injection hf with hv
        subst hv
        rw [hm2, alistFind_cons, if_pos rfl]
      · rw [if_neg hk2, alistFind_cons] at hf
        by_cases hk1 : k = lowStr p.1
        · rw [if_pos hk1] at hf
          injection hf with hv
          subst hv
          rw [hm2, alistFind_cons, if_pos rfl]
        · rw [if_neg hk1] at hf
          rw [hm2, alistFind_cons]
          by_cases hv2 : lowStr v = lowStr p.2
          · rw [if_pos hv2]
            obtain ⟨hshape, _⟩ := ha k v hf
            rcases hshape with hks | ⟨q, hq, hks, hvq⟩
            · exact absurd (hks.trans hv2) hk2
            · have huq := alias_value_ci_unique p hp q hq
                (by rw [← hvq] ; exact hv2.symm)
              rw [huq, ← hvq]
          · rw [if_neg hv2, alistFind_cons]
            by_cases hv1 : lowStr v = lowStr p.1
            · rw [if_pos hv1]
              obtain ⟨hshape, _⟩ := ha k v hf
              rcases hshape with hks | ⟨q, hq, hks, hvq⟩
              · exact absurd (hks.trans hv1) hk1
              · have hchain := alias_chain q hq p hp
                  (by rw [← hvq]; exact hv1.symm)
                rw [hchain, ← hvq]
            · rw [if_neg hv1]
              exact hb k v hf
    · intro s hs
      rw [hss2, mem_setAdd] at hs
      rw [hm2, alistFind_cons]
      rcases hs with hs | rfl
      · by_cases hv2 : lowStr s = lowStr p.2
        · rw [if_pos hv2]
          rfl
        · rw [if_neg hv2, alistFind_cons]
          by_cases hv1 : lowStr s = lowStr p.1
          · rw [if_pos hv1]
            rfl
          · rw [if_neg hv1]
            exact hcx s hs
      · rw [if_pos rfl]
        rfl
    · intro s hs
      rw [hss2, mem_setAdd] at hs
      rcases hs with hs | rfl
      · exact hd s hs
      · exact Or.inr hcval
    · intro s hs hval
      rw [hss2, mem_setAdd] at hs
      rw [hm2, alistFind_cons]
      rcases hs with hs | rfl
      · by_cases hv2 : lowStr s = lowStr p.2
        · rw [if_pos hv2]
          obtain ⟨q, hq, hqv⟩ := List.mem_map.mp hval
          have huq := alias_value_ci_unique p hp q hq (by rw [hqv]; exact hv2.symm)
          rw [huq, hqv]
        · rw [if_neg hv2, alistFind_cons]
          by_cases hv1 : lowStr s = lowStr p.1
          · rw [if_pos hv1]
            obtain ⟨q, hq, hqv⟩ := List.mem_map.mp hval
            have hchain := alias_chain q hq p hp (by rw [hqv]; exact hv1.symm)
            rw [hchain, hqv]
          · rw [if_neg hv1]
            exact he s hs hval
      · rw [if_pos rfl]

/-- The alias fold preserves the alias-phase invariant. -/
theorem alias_fold (jobs : List (List String)) (l : List (String × String))
    (hl : ∀ q ∈ l, q ∈ SKILL_ALIASES) :
    ∀ acc, aliasInv jobs acc → aliasInv jobs (l.foldl loadAliasStep acc) := by
  induction l with
  | nil => exact fun acc h => h
  | cons q rest ih =>
    intro acc h
    exact ih (fun x hx => hl x (by simp [hx])) _
      (alias_step jobs acc q (hl q (by simp)) h)

/-- With whitespace-normal dataset entries not required, only
case-insensitive uniqueness: the fully loaded taxonomy satisfies the
alias-phase invariant. -/
theorem loadSkills_aliasInv (jobs : List (List String))
    (huniq : ∀ job ∈ jobs, ∀ sk ∈ job, ∀ job' ∈ jobs, ∀ sk' ∈ job',
      lowStr (trimStr sk) = lowStr (trimStr sk') → trimStr sk = trimStr sk') :
    aliasInv jobs (loadSkills (some jobs)) := by
  have h0 : loadSkills (some jobs) = SKILL_ALIASES.foldl loadAliasStep
      (jobs.foldl (fun acc job => job.foldl loadDatasetStep acc) ⟨[], []⟩) := rfl
  rw [h0]
  exact alias_fold jobs SKILL_ALIASES (fun q hq => hq) _
    (aliasInv_of_dsInv jobs _ huniq
      (ds_fold_outer jobs jobs (fun j hj => hj) _ (dsInv_empty jobs)))

/-- `normalize` on an already stripped, whitespace-normal, nonempty input
is plain lowercase lookup. -/
theorem normalizeSkill_eq_find (tax : SkillTaxonomy) (s : String)
    (hne : s ≠ "") (htrim : trimStr s = s)
    (hws : collapseWS (lowStr s) = lowStr s) :
    normalizeSkill tax s = alistFind tax.lowerMap (lowStr s) := by
  unfold normalizeSkill
  rw [if_neg hne]
  show alistFind tax.lowerMap (collapseWS (lowStr (trimStr s))) = _
  rw [htrim, hws]

/-- Every dataset-originated (under the whitespace proviso) or
alias-originated string is nonempty, stripped and whitespace-normal. -/
theorem origin_sane (jobs : List (List String)) (v : String)
    (hws : ∀ job ∈ jobs, ∀ sk ∈ job,
      collapseWS (lowStr (trimStr sk)) = lowStr (trimStr sk))
    (ho : dsOrigin jobs v ∨ v ∈ SKILL_ALIASES.map Prod.snd) :
    v ≠ "" ∧ trimStr v = v ∧ collapseWS (lowStr v) = lowStr v := by
  rcases ho with ⟨job, hjob, sk, hsk, rfl, hne⟩ | hval
  · exact ⟨hne, trimStr_idem sk, hws job hjob sk hsk⟩
  · obtain ⟨q, hq, hqv⟩ := List.mem_map.mp hval
    subst hqv
    exact alias_value_sane q hq

/-- A write-only alias step never loses a skill's lowercase key. -/
theorem keyInv_alias_step (acc : SkillTaxonomy) (p : String × String)
    (h : ∀ s ∈ acc.skills, (alistFind acc.lowerMap (lowStr s)).isSome = true) :
    ∀ s ∈ (loadAliasStep acc p).skills,
      (alistFind (loadAliasStep acc p).lowerMap (lowStr s)).isSome = true := by
  have hstep : loadAliasStep acc p =
      if acc.skills.contains p.2 then
        ⟨acc.skills, (lowStr p.1, p.2) :: acc.lowerMap⟩
      else
        ⟨setAdd acc.skills p.2,
          (lowStr p.2, p.2) :: (lowStr p.1, p.2) :: acc.lowerMap⟩ := rfl
  rw [hstep]
  by_cases hsk : acc.skills.contains p.2
  · rw [if_pos hsk]
    intro s hs
    have hs' : s ∈ acc.skills := hs
    rw [show (⟨acc.skills, (lowStr p.1, p.2) :: acc.lowerMap⟩ :
        SkillTaxonomy).lowerMap = (lowStr p.1, p.2) :: acc.lowerMap from rfl,
      alistFind_cons]
    by_cases hk : lowStr s = lowStr p.1
    · rw [if_pos hk]
      rfl
    · rw [if_neg hk]
      exact h s hs'
  · rw [if_neg hsk]
    intro s hs
    rw [show (⟨setAdd acc.skills p.2,
        (lowStr p.2, p.2) :: (lowStr p.1, p.2) :: acc.lowerMap⟩ :
        SkillTaxonomy).skills = setAdd acc.skills p.2 from rfl,
      mem_setAdd] at hs
    rw [show (⟨setAdd acc.skills p.2,
        (lowStr p.2, p.2) :: (lowStr p.1, p.2) :: acc.lowerMap⟩ :
        SkillTaxonomy).lowerMap =
        (lowStr p.2, p.2) :: (lowStr p.1, p.2) :: acc.lowerMap from rfl,
      alistFind_cons]
    by_cases hk2 : lowStr s = lowStr p.2
    · rw [if_pos hk2]
      rfl
    · rw [if_neg hk2, alistFind_cons]
      by_cases hk1 : lowStr s = lowStr p.1
      · rw [if_pos hk1]
        rfl
      · rw [if_neg hk1]
        rcases hs with hs | rfl
        · exact h s hs
        · exact absurd rfl hk2

/-- The write-only key invariant survives the whole alias fold. -/
theorem keyInv_alias_fold (l : List (String × String)) :
    ∀ acc, (∀ s ∈ acc.skills, (alistFind acc.lowerMap (lowStr s)).isSome = true) →
      ∀ s ∈ (l.foldl loadAliasStep acc).skills,
        (alistFind (l.foldl loadAliasStep acc).lowerMap (lowStr s)).isSome = true := by
  induction l with
  | nil => exact fun acc h => h
  | cons q rest ih =>
    intro acc h
    exact ih _ (keyInv_alias_step acc q h)

set_option maxRecDepth 40000 in
/-- C7 (counterexample): the claim promises `normalize(s) = s` for every
dataset skill name `s` as loaded.  A dataset entry with doubled internal
whitespace defeats it: the skill is stored verbatim in the set and keyed by
plain lowercasing, but `normalize` collapses internal whitespace before the
lookup, so the loaded skill name fails to normalize at all. -/
theorem C7_counterexample :
    "Foo  Bar" ∈ (loadSkills (some [["Foo  Bar"]])).skills ∧
    normalizeSkill (loadSkills (some [["Foo  Bar"]])) "Foo  Bar" = none := by
  constructor
  · decide
  · decide

/-- C7 (amended): unconditionally, every loaded skill's lowercase form is a
key of the lowercase map.  Under two provisos on the dataset — every
stripped skill name is internally whitespace-normal, and stripped names are
case-insensitively unique — every loaded skill normalizes to some canonical
`c` which is a fixed point of `normalize`. -/
theorem C7_dataset_normalization :
    (∀ jobs : List (List String), ∀ s ∈ (loadSkills (some jobs)).skills,
      (alistFind (loadSkills (some jobs)).lowerMap (lowStr s)).isSome = true) ∧
    (∀ jobs : List (List String),
      (∀ job ∈ jobs, ∀ sk ∈ job,
        collapseWS (lowStr (trimStr sk)) = lowStr (trimStr sk)) →
      (∀ job ∈ jobs, ∀ sk ∈ job, ∀ job' ∈ jobs, ∀ sk' ∈ job',
        lowStr (trimStr sk) = lowStr (trimStr sk') → trimStr sk = trimStr sk') →
      ∀ s ∈ (loadSkills (some jobs)).skills,
        ∃ c, normalizeSkill (loadSkills (some jobs)) s = some c ∧
          normalizeSkill (loadSkills (some jobs)) c = some c) := by
  constructor
  · intro jobs
    have h0 : loadSkills (some jobs) = SKILL_ALIASES.foldl loadAliasStep
        (jobs.foldl (fun acc job => job.foldl loadDatasetStep acc) ⟨[], []⟩) := rfl
    rw [h0]
    exact keyInv_alias_fold SKILL_ALIASES _
      ((ds_fold_outer jobs jobs (fun j hj => hj) _ (dsInv_empty jobs)).2.1)
  · intro jobs hws huniq s hs
    obtain ⟨ha, hb, hcx, hd, _⟩ := loadSkills_aliasInv jobs huniq
    have h1 := hcx s hs
    cases hf : alistFind (loadSkills (some jobs)).lowerMap (lowStr s) with
    | none =>
      rw [hf] at h1
      cases h1
    | some c =>
      obtain ⟨hne, htrim, hwsn⟩ := origin_sane jobs s hws (hd s hs)
      have hn1 : normalizeSkill (loadSkills (some jobs)) s = some c := by
        rw [normalizeSkill_eq_find _ s hne htrim hwsn, hf]
      obtain ⟨hnec, htrimc, hwsnc⟩ := origin_sane jobs c hws (ha _ c hf).2
      have hn2 : normalizeSkill (loadSkills (some jobs)) c = some c := by
        rw [normalizeSkill_eq_find _ c hnec htrimc hwsnc]
        exact hb _ c hf
      exact ⟨c, hn1, hn2⟩

set_option maxRecDepth 40000 in
/-- C7 witness: both halves of the amended theorem applied to the concrete
dataset `[["Go"]]`, whose single name satisfies both provisos. -/
theorem C7_dataset_normalization_witness :
    (alistFind (loadSkills (some [["Go"]])).lowerMap (lowStr "Go")).isSome = true ∧
    ∃ c, normalizeSkill (loadSkills (some [["Go"]])) "Go" = some c ∧
      normalizeSkill (loadSkills (some [["Go"]])) c = some c :=
  ⟨C7_dataset_normalization.1 [["Go"]] "Go" (by decide),
    C7_dataset_normalization.2 [["Go"]] (by decide) (by decide) "Go" (by decide)⟩
